import Mathlib

/-!
# SmallShell: job table, timeout list and command dispatch

A shallow embedding of `Commands.cpp` / `Commands.h`: the job table
(`JobsList`), the timeout list (`TimeoutList`), the foreground protocols with
`fg` and `bg`, the command line functions with `CreateCommand`, `kill`, and the
redirection command, with the properties proved about them.

Conventions of the embedding:

* a `std::list<JobEntry*>` is a `List JobEntry`; an iterator into it is an index;
* `int`, `pid_t` and `time_t` values are mathematical integers (`Int`); where
  the range of `int` decides the behaviour it is explicit: the sum `jobId + 1`
  of `addJob` is reduced to 32 bits (`wrapInt`), and `std::stoi` checks the
  range;
* a `Command*` held by a job or a timeout entry is represented by its command
  line text; a `std::string` that is parsed is a `List Char`;
* the system calls are parameters: `waitpid` is a function from the pid to the
  result of the non-blocking wait, a blocking wait is its result, `time(NULL)`
  is a stream of clock readings (`clock t` is the value of the `t`-th call),
  the success of `kill`, `dup`, `stat`, `mkdir` and `open` is given, and the
  calls made are recorded in the result;
* `difftime(a, b)` of two clock values is their difference `a - b`;
* the value of `atoi(args[1])` in `fg` and `bg` is a parameter.
-/

namespace Smash

/-! ## Data model (`Commands.h`) -/

/-- The class `JobsList::JobEntry`: the command, the OS pid, the job id, the stop
mark and the time the entry was created. -/
structure JobEntry where
  cmd : String
  pid : Int
  jobId : Int
  isStopped : Bool
  elapsed : Int
deriving DecidableEq

/-- The struct `TimeoutList::TimeoutEntry`. The member `time_to_kill` is assigned
once, in the constructor, and is the function `TimeoutEntry.time_to_kill` below. -/
structure TimeoutEntry where
  cmd : String
  pid : Int
  timestamp : Int
  duration : Int
deriving DecidableEq

/-- The member `time_to_kill`, set by the constructor to `timestamp + duration`
and never written again. -/
def TimeoutEntry.time_to_kill (e : TimeoutEntry) : Int :=
  e.timestamp + e.duration

/-- What one `waitpid(pid, &status, WNOHANG | WUNTRACED | WCONTINUED)` call
gives back: the return value `w` and the value of each status test on the
reported `status` (`WIFEXITED`, `WIFSIGNALED`, `WIFSTOPPED`, `WIFCONTINUED`). -/
structure WaitResult where
  w : Int
  exited : Bool
  signaled : Bool
  stopped : Bool
  continued : Bool
deriving DecidableEq

/-- The part of the singleton `SmallShell` that the job table and the timeout
list work on: the jobs, the timeouts and the two foreground slots, together with
the pending OS alarm of the shell process (`none` when no alarm is armed,
`some n` when `alarm(n)` is pending). -/
structure SmallShell where
  jobs : List JobEntry
  timeouts : List TimeoutEntry
  alarm : Option Int
  fg_pid : Int
  second_fg_pid : Int
deriving DecidableEq

/-! ## `TimeoutList::removeByPid` -/

/-- The function `TimeoutList::removeByPid`: erase the first entry with the given
pid and return. -/
def removeByPid : List TimeoutEntry → Int → List TimeoutEntry
  | [], _ => []
  | e :: es, pid => if e.pid = pid then es else e :: removeByPid es pid

/-! ## `JobsList` -/

/-- The function `JobsList::getJobById`: the first entry with the given id. -/
def getJobById : List JobEntry → Int → Option JobEntry
  | [], _ => none
  | j :: js, jobId => if j.jobId = jobId then some j else getJobById js jobId

/-- Writing `isStopped` through the pointer that `getJobById` returns: the first
entry with the given id gets the new mark. -/
def setStopMark (mark : Bool) : List JobEntry → Int → List JobEntry
  | [], _ => []
  | j :: js, jobId =>
    if j.jobId = jobId then { j with isStopped := mark } :: js
    else j :: setStopMark mark js jobId

/-- The function `JobsList::addStopMark`: result code and the table afterwards. -/
def addStopMark (jobs : List JobEntry) (jobId : Int) : Int × List JobEntry :=
  match getJobById jobs jobId with
  | none => (-1, jobs)
  | some _ => (0, setStopMark true jobs jobId)

/-- The function `JobsList::removeStopMark`: result code and the table afterwards. -/
def removeStopMark (jobs : List JobEntry) (jobId : Int) : Int × List JobEntry :=
  match getJobById jobs jobId with
  | none => (-1, jobs)
  | some _ => (0, setStopMark false jobs jobId)

/-- The function `JobsList::removeJobById`: erase the first entry with the id. -/
def removeJobById : List JobEntry → Int → List JobEntry
  | [], _ => []
  | j :: js, jobId => if j.jobId = jobId then js else j :: removeJobById js jobId

/-- The loop of `JobsList::removeFinishedJobs`. `current` is the position of the
iterator, the first argument bounds the number of iterations. -/
def removeFinishedJobsLoop (waitpid : Int → WaitResult) : Nat → Nat → SmallShell → SmallShell
  | 0, _, s => s
  | fuel + 1, current, s =>
    match s.jobs.get? current with
    | none => s
    | some job =>
      let r := waitpid job.pid
      if r.w = -1 then
        removeFinishedJobsLoop waitpid fuel (current + 1) s
      else if (r.exited || r.signaled) && decide (r.w > 0) then
        removeFinishedJobsLoop waitpid fuel current
          { s with timeouts := removeByPid s.timeouts job.pid,
                   jobs := s.jobs.eraseIdx current }
      else if r.stopped && decide (r.w > 0) then
        removeFinishedJobsLoop waitpid fuel (current + 1)
          { s with jobs := (addStopMark s.jobs job.jobId).2 }
      else if r.continued && decide (r.w > 0) then
        removeFinishedJobsLoop waitpid fuel (current + 1)
          { s with jobs := (removeStopMark s.jobs job.jobId).2 }
      else
        removeFinishedJobsLoop waitpid fuel (current + 1) s

/-- The function `JobsList::removeFinishedJobs`. Every iteration of its loop
either erases the current entry or advances the iterator, so the length of the
table bounds the number of iterations. -/
def removeFinishedJobs (waitpid : Int → WaitResult) (s : SmallShell) : SmallShell :=
  removeFinishedJobsLoop waitpid s.jobs.length 0 s

/-- The largest value of `int`. -/
def INT_MAX : Int := 2147483647

/-- The smallest value of `int`. -/
def INT_MIN : Int := -2147483648

/-- The `int` that a 32-bit two's-complement machine stores for the mathematical
result `x` of an `int` computation: `x` itself when it is in the range of `int`,
and `x` reduced modulo `2^32` into that range otherwise (signed overflow is
undefined behaviour in C++; the compiled program wraps, so that
`INT_MAX + 1` reads `INT_MIN`). -/
def wrapInt (x : Int) : Int :=
  (x + 2147483648) % 4294967296 - 2147483648

/-- The value `x` is in the range of `int`. -/
def fitsInt (x : Int) : Prop :=
  INT_MIN ≤ x ∧ x ≤ INT_MAX

instance (x : Int) : Decidable (fitsInt x) := by
  unfold fitsInt; infer_instance

/-- The function `JobsList::addJob`; `now` is the clock reading taken by the
`JobEntry` constructor. The new id is an `int`: the sum `jobId + 1` is taken
in 32 bits. -/
def addJob (waitpid : Int → WaitResult) (now : Int) (s : SmallShell)
    (cmd : String) (pid : Int) (isStopped : Bool) : SmallShell :=
  let s1 := removeFinishedJobs waitpid s
  let newId : Int :=
    match s1.jobs.getLast? with
    | none => 1
    | some back => wrapInt (back.jobId + 1)
  { s1 with jobs := s1.jobs ++ [{ cmd := cmd, pid := pid, jobId := newId,
                                  isStopped := isStopped, elapsed := now }] }

/-- The function `JobsList::getLastJob`: the entry and the value written to
`*lastJobId`. -/
def getLastJob (jobs : List JobEntry) : Option JobEntry × Int :=
  match jobs.getLast? with
  | none => (none, -1)
  | some back => (some back, back.jobId)

/-- The reverse scan of `JobsList::getLastStoppedJob`, on the reversed table. -/
def lastStoppedScan : List JobEntry → Option JobEntry × Int
  | [] => (none, -1)
  | j :: js => if j.isStopped then (some j, j.jobId) else lastStoppedScan js

/-- The function `JobsList::getLastStoppedJob`: the entry and the value written
to `*jobId`. -/
def getLastStoppedJob (jobs : List JobEntry) : Option JobEntry × Int :=
  if jobs.isEmpty then (none, -1) else lastStoppedScan jobs.reverse

/-- The `for` loop of `JobsList::addExistingJob`: insert the job before the first
entry with a greater id; `none` when the loop runs to the end. -/
def insertBeforeGreater (job : JobEntry) : List JobEntry → Option (List JobEntry)
  | [] => none
  | j :: js =>
    if j.jobId > job.jobId then some (job :: j :: js)
    else (insertBeforeGreater job js).map (fun l => j :: l)

/-- The function `JobsList::addExistingJob`: result code and the table
afterwards. -/
def addExistingJob (jobs : List JobEntry) (job : JobEntry) : Int × List JobEntry :=
  match jobs.getLast? with
  | none => (0, jobs ++ [job])
  | some back =>
    if back.jobId < job.jobId then (0, jobs ++ [job])
    else
      match insertBeforeGreater job jobs with
      | some l => (0, l)
      | none => (-1, jobs)

/-! ## `TimeoutList` -/

/-- The function `TimeoutEntry::timeToLive`, given the reading `now` of its
`time(NULL)` call: `difftime(time_to_kill, now)`. -/
def TimeoutEntry.timeToLive (e : TimeoutEntry) (now : Int) : Int :=
  e.time_to_kill - now

/-- The `for` loop of `TimeoutList::findMinTimeout`: `t` counts the clock
readings taken so far, `min` is the running minimum. -/
def findMinTimeoutLoop (clock : Nat → Int) : Nat → Int → List TimeoutEntry → Int × Nat
  | t, min, [] => (min, t)
  | t, min, e :: es =>
    let left := e.timeToLive (clock t)
    findMinTimeoutLoop clock (t + 1) (if left < min then left else min) es

/-- The function `TimeoutList::findMinTimeout`: the returned value and the
number of clock readings taken so far. -/
def findMinTimeout (clock : Nat → Int) (t : Nat) (timeouts : List TimeoutEntry) : Int × Nat :=
  match timeouts with
  | [] => (0, t)
  | front :: _ => findMinTimeoutLoop clock (t + 1) (front.timeToLive (clock t)) timeouts

/-- The function `TimeoutList::addTimeout`; `now` is the clock reading taken by
the `TimeoutEntry` constructor. -/
def addTimeout (timeouts : List TimeoutEntry) (now : Int) (cmd : String) (pid : Int)
    (duration : Int) : List TimeoutEntry :=
  timeouts ++ [{ cmd := cmd, pid := pid, timestamp := now, duration := duration }]

/-- What the `while` loop of `TimeoutList::handleAlarms` leaves behind: the list,
the pids that `kill(pid, SIGKILL)` was called on (in call order), the number of
clock readings taken, and whether the loop left the function through the
`return` of the failed clock reading. -/
structure SweepResult where
  timeouts : List TimeoutEntry
  kills : List Int
  t : Nat
  returned : Bool
deriving DecidableEq

/-- The `while` loop of `TimeoutList::handleAlarms` from the position of the
iterator on. -/
def handleAlarmsLoop (clock : Nat → Int) : Nat → List TimeoutEntry → SweepResult
  | t, [] => { timeouts := [], kills := [], t := t, returned := false }
  | t, e :: es =>
    let now := clock t
    if now = -1 then
      { timeouts := e :: es, kills := [], t := t + 1, returned := true }
    else if now - e.timestamp ≥ e.duration then
      let r := handleAlarmsLoop clock (t + 1) es
      { r with kills := e.pid :: r.kills }
    else
      let r := handleAlarmsLoop clock (t + 1) es
      { r with timeouts := e :: r.timeouts }

/-- The result of `TimeoutList::handleAlarms`: the shell afterwards, the pids a
kill signal was sent to, and the number of clock readings taken. -/
structure AlarmsResult where
  shell : SmallShell
  kills : List Int
  t : Nat
deriving DecidableEq

/-- The function `TimeoutList::handleAlarms`. -/
def handleAlarms (waitpid : Int → WaitResult) (clock : Nat → Int) (t : Nat)
    (s : SmallShell) : AlarmsResult :=
  let s1 := removeFinishedJobs waitpid s
  let r := handleAlarmsLoop clock t s1.timeouts
  if r.returned then
    { shell := { s1 with timeouts := r.timeouts }, kills := r.kills, t := r.t }
  else
    let next_timeout := findMinTimeout clock r.t r.timeouts
    if next_timeout.1 > 0 then
      { shell := { s1 with timeouts := r.timeouts, alarm := some next_timeout.1 },
        kills := r.kills, t := next_timeout.2 }
    else
      { shell := { s1 with timeouts := r.timeouts }, kills := r.kills, t := next_timeout.2 }

/-- The arming step of `TimeoutCommand::execute` for a duration that passed the
checks (`duration > 0`): the shell afterwards and the number of clock readings
taken. -/
def armAlarm (clock : Nat → Int) (t : Nat) (s : SmallShell) (duration : Int) :
    SmallShell × Nat :=
  let before := findMinTimeout clock t s.timeouts
  if before.1 = 0 ∨ (before.1 > 0 ∧ duration < before.1) then
    ({ s with alarm := some duration }, before.2)
  else
    (s, before.2)

/-! ## The steps of the job table -/

/-- The job-table operations the shell performs, with the system-call results
each of them sees. -/
inductive JobsStep where
  | addJob (waitpid : Int → WaitResult) (now : Int) (cmd : String) (pid : Int)
      (isStopped : Bool)
  | removeFinishedJobs (waitpid : Int → WaitResult)
  | removeJobById (jobId : Int)
  | addStopMark (jobId : Int)
  | removeStopMark (jobId : Int)
  | addExistingJob (job : JobEntry)

/-- The shell after one job-table operation. -/
def JobsStep.run : JobsStep → SmallShell → SmallShell
  | .addJob waitpid now cmd pid isStopped, s => Smash.addJob waitpid now s cmd pid isStopped
  | .removeFinishedJobs waitpid, s => Smash.removeFinishedJobs waitpid s
  | .removeJobById jobId, s => { s with jobs := Smash.removeJobById s.jobs jobId }
  | .addStopMark jobId, s => { s with jobs := (Smash.addStopMark s.jobs jobId).2 }
  | .removeStopMark jobId, s => { s with jobs := (Smash.removeStopMark s.jobs jobId).2 }
  | .addExistingJob job, s => { s with jobs := (Smash.addExistingJob s.jobs job).2 }

/-- When the shell performs the operation: a job is handed back with
`addExistingJob` only while its id is not in the table (the `fg` flow removes
the job before waiting for it). -/
def JobsStep.enabled : JobsStep → SmallShell → Prop
  | .addExistingJob job, s => ∀ j ∈ s.jobs, j.jobId ≠ job.jobId
  | _, _ => True

/-- The shells reached from an empty job table by job-table operations. -/
inductive Reachable : SmallShell → Prop where
  | init (s : SmallShell) (h : s.jobs = []) : Reachable s
  | step (s : SmallShell) (op : JobsStep) (hs : Reachable s) (ho : op.enabled s) :
      Reachable (op.run s)

/-- The operation stays inside `int`: an `addJob` finds, after its reap, a last
id whose successor is still an `int` (for an `int` id: the id is below
`INT_MAX`). -/
def JobsStep.inRange : JobsStep → SmallShell → Prop
  | .addJob waitpid _ _ _ _, s =>
    ∀ back, (Smash.removeFinishedJobs waitpid s).jobs.getLast? = some back →
      fitsInt (back.jobId + 1)
  | _, _ => True

/-- The shells reached from an empty job table by job-table operations that
stay inside `int`. -/
inductive ReachableInRange : SmallShell → Prop where
  | init (s : SmallShell) (h : s.jobs = []) : ReachableInRange s
  | step (s : SmallShell) (op : JobsStep) (hs : ReachableInRange s) (ho : op.enabled s)
      (hr : op.inRange s) : ReachableInRange (op.run s)

/-- The shells reached from the shell at start-up by launches and reaps alone:
`addJob` (a background launch, or a foreground command that was stopped) and
`removeFinishedJobs`, under any wait results. -/
inductive ReachedByLaunches : SmallShell → Prop where
  | init : ReachedByLaunches
      { jobs := [], timeouts := [], alarm := none, fg_pid := -1, second_fg_pid := -1 }
  | launch (s : SmallShell) (waitpid : Int → WaitResult) (now : Int) (cmd : String)
      (pid : Int) (isStopped : Bool) (hs : ReachedByLaunches s) :
      ReachedByLaunches (addJob waitpid now s cmd pid isStopped)
  | reap (s : SmallShell) (waitpid : Int → WaitResult) (hs : ReachedByLaunches s) :
      ReachedByLaunches (removeFinishedJobs waitpid s)

/-- The job ids, read in list order, are strictly increasing. -/
def IdsIncreasing (jobs : List JobEntry) : Prop :=
  (jobs.map JobEntry.jobId).Pairwise (fun a b => a < b)

instance (jobs : List JobEntry) : Decidable (IdsIncreasing jobs) := by
  unfold IdsIncreasing; infer_instance

/-- The outcome test of `removeFinishedJobs` for "exited or killed by a signal":
the wait did not fail, reported a pid, and `WIFEXITED` or `WIFSIGNALED` holds. -/
def WaitResult.finished (r : WaitResult) : Bool :=
  decide (r.w ≠ -1) && ((r.exited || r.signaled) && decide (r.w > 0))

/-- Everything of a job entry but its stop mark. -/
def JobEntry.identity (j : JobEntry) : String × Int × Int × Int :=
  (j.cmd, j.pid, j.jobId, j.elapsed)

/-- The pid inside the identity of an entry. -/
def pidOf (k : String × Int × Int × Int) : Int := k.2.1

/-- The reaped part of a list of identities: those whose wait reported an exit. -/
def reapedPids (waitpid : Int → WaitResult) (ks : List (String × Int × Int × Int)) : List Int :=
  (ks.filter (fun k => (waitpid (pidOf k)).finished)).map pidOf

/-- The surviving part of a list of identities. -/
def survivors (waitpid : Int → WaitResult) (ks : List (String × Int × Int × Int)) :
    List (String × Int × Int × Int) :=
  ks.filter (fun k => !(waitpid (pidOf k)).finished)

/-! ## Sample values -/

/-- The shell at start-up: no jobs, no timeouts, no alarm, both foreground slots
at -1. -/
def SmallShell.initial : SmallShell :=
  { jobs := [], timeouts := [], alarm := none, fg_pid := -1, second_fg_pid := -1 }

/-- The wait result "no state change": `waitpid` returns 0. -/
def noChange : WaitResult :=
  { w := 0, exited := false, signaled := false, stopped := false, continued := false }

/-- The wait result "stopped". -/
def sawStop : WaitResult :=
  { w := 1, exited := false, signaled := false, stopped := true, continued := false }

/-- The wait result "exited". -/
def sawExit : WaitResult :=
  { w := 1, exited := true, signaled := false, stopped := false, continued := false }

/-- A table of three jobs, the middle one stopped. -/
def sampleJobs : List JobEntry :=
  [⟨"a", 101, 1, false, 0⟩, ⟨"b", 102, 2, true, 0⟩, ⟨"c", 103, 3, false, 0⟩]

/-- The shell after two background launches, an `fg` of job 1 and its return to
the table. -/
def sampleReached : SmallShell :=
  (JobsStep.addExistingJob ⟨"sleep 1", 101, 1, true, 7⟩).run
    ((JobsStep.removeJobById 1).run
      ((JobsStep.addJob (fun _ => noChange) 2 "sleep 2 &" 102 false).run
        ((JobsStep.addJob (fun _ => noChange) 1 "sleep 1 &" 101 false).run
          SmallShell.initial)))

/-- The shell after a launch of `a` (pid 10), which stays, and `n + 1` further
launches of `b`, each reaped after the next one was launched: the job `a` with
id 1 and the last `b`, whose id has been counted up from 2 in `int`. -/
def launchedShell (n : Nat) (pid : Int) (isStopped : Bool) : SmallShell :=
  { SmallShell.initial with
    jobs := [⟨"a", 10, 1, false, 0⟩, ⟨"b", pid, wrapInt (2 + n), isStopped, 0⟩] }

/-- Wait results in which the process `pid` has exited and no other process has
changed. -/
def exitOf (pid : Int) (p : Int) : WaitResult :=
  if p = pid then sawExit else noChange

/-- A shell with one timeout entry (started at 100, duration 5, so its deadline
is 105) and the alarm that the last sweep armed for it still pending. -/
def dueShell : SmallShell :=
  { SmallShell.initial with
    timeouts := [⟨"timeout 5 sleep 100 &", 7, 100, 5⟩], alarm := some 1 }

/-- A shell with four timeout entries, deadlines 109, 105, 107 and 101. -/
def sampleTimeouts : SmallShell :=
  { SmallShell.initial with
    timeouts := [⟨"a", 20, 100, 9⟩, ⟨"b", 21, 100, 5⟩, ⟨"c", 22, 100, 7⟩, ⟨"d", 23, 100, 1⟩] }

/-- A shell with one timeout entry of deadline 106 and no alarm pending, as when
the alarm has just expired. -/
def tickShell : SmallShell :=
  { SmallShell.initial with timeouts := [⟨"timeout 6 sleep 100 &", 7, 100, 6⟩] }

/-- A clock whose first reading is 105 and whose later readings are 106: the
second changes between the loop of the sweep and `findMinTimeout`. -/
def tickClock (n : Nat) : Int :=
  if n = 0 then 105 else 106

/-- At most one entry per pid in a timeout list. -/
def OnePerPid (timeouts : List TimeoutEntry) : Prop :=
  (timeouts.map TimeoutEntry.pid).Nodup

instance (timeouts : List TimeoutEntry) : Decidable (OnePerPid timeouts) := by
  unfold OnePerPid; infer_instance

/-- A timeout list with two entries for pid 7. -/
def twoForPid : List TimeoutEntry :=
  [⟨"timeout 5 a", 7, 100, 5⟩, ⟨"timeout 9 b", 8, 100, 9⟩, ⟨"timeout 7 c", 7, 101, 7⟩]

/-! ## Foreground protocols, `fg` and `bg` -/

/-- The function `SmallShell::addJob(JobEntry*, bool)`: the entry gets the stop
mark and a fresh start time `now` and goes back into the table with
`addExistingJob`. -/
def addJobEntry (now : Int) (s : SmallShell) (job : JobEntry) (isStopped : Bool) : SmallShell :=
  { s with jobs := (addExistingJob s.jobs { job with isStopped := isStopped, elapsed := now }).2 }

/-- The function `handleForeground(Command*, pid_t)`. `wait` is what the blocking
`waitpid(pid, &status, WUNTRACED)` gives back; `waitpid` and `now` are what the
reap and the constructor inside `addJob` see. -/
def handleForeground (wait : WaitResult) (waitpid : Int → WaitResult) (now : Int)
    (s : SmallShell) (cmd : String) (pid : Int) : SmallShell :=
  let s1 := { s with fg_pid := pid }
  if wait.w = -1 then
    { s1 with fg_pid := -1 }
  else if wait.stopped then
    { addJob waitpid now s1 cmd pid true with fg_pid := -1 }
  else if wait.exited then
    { s1 with timeouts := removeByPid s1.timeouts pid, fg_pid := -1 }
  else
    { s1 with fg_pid := -1 }

/-- The function `handleForeground(JobEntry*)`, used by `fg`. -/
def handleForegroundJob (wait : WaitResult) (now : Int) (s : SmallShell) (job : JobEntry) :
    SmallShell :=
  let s1 := { s with fg_pid := job.pid }
  if wait.w = -1 then
    { s1 with fg_pid := -1 }
  else if wait.stopped then
    { addJobEntry now s1 job true with fg_pid := -1 }
  else if wait.exited then
    { s1 with timeouts := removeByPid s1.timeouts job.pid, fg_pid := -1 }
  else
    { s1 with fg_pid := -1 }

/-- The function `handleForeground(Command*, Command*, pid_t, pid_t)`, used by a
foreground pipe: `wait1` and `wait2` are the results of the two blocking waits,
in order. -/
def handleForegroundPipe (wait1 wait2 : WaitResult) (waitpid1 waitpid2 : Int → WaitResult)
    (now1 now2 : Int) (s : SmallShell) (cmd1 cmd2 : String) (p1 p2 : Int) : SmallShell :=
  let s1 := { s with fg_pid := p1, second_fg_pid := p2 }
  if wait1.w = -1 then
    { s1 with fg_pid := -1, second_fg_pid := -1 }
  else
    let s2 := if wait1.stopped then addJob waitpid1 now1 s1 cmd1 p1 true else s1
    let s3 := { s2 with fg_pid := -1 }
    if wait2.w = -1 then
      { s3 with fg_pid := -1, second_fg_pid := -1 }
    else
      let s4 := if wait2.stopped then addJob waitpid2 now2 s3 cmd2 p2 true else s3
      { s4 with fg_pid := -1, second_fg_pid := -1 }

/-- What `fg` prints or does. -/
inductive FgReport where
  | invalidArguments
  | jobsListEmpty
  | jobDoesNotExist (jobId : Int)
  | killFailed
  | foregrounded
deriving DecidableEq

/-- The result of `ForegroundCommand::execute`: the shell afterwards, the report,
and the pids `kill(pid, SIGCONT)` was called on. -/
structure FgResult where
  shell : SmallShell
  report : FgReport
  continued : List Int
deriving DecidableEq

/-- The job `fg` works on: the last job when there is no argument, the job with
the id `atoi(args[1])` otherwise (`args1` is that value, `none` when `args[1]`
is `NULL`). -/
def fgSelect (args1 : Option Int) (jobs : List JobEntry) : Except FgReport (JobEntry × Int) :=
  match args1 with
  | none =>
    match getLastJob jobs with
    | (some job, jobId) =>
      if jobId = -1 then .error FgReport.jobsListEmpty else .ok (job, jobId)
    | (none, _) => .error FgReport.jobsListEmpty
  | some jobId =>
    if jobId = 0 then .error FgReport.invalidArguments
    else
      match getJobById jobs jobId with
      | none => .error (FgReport.jobDoesNotExist jobId)
      | some job => .ok (job, jobId)

/-- The function `ForegroundCommand::execute`. `killOk` tells whether
`kill(pid, SIGCONT)` succeeds, `wait` is the result of the blocking wait. -/
def ForegroundCommand.execute (args_len : Nat) (args1 : Option Int) (killOk : Bool)
    (wait : WaitResult) (now : Int) (s : SmallShell) : FgResult :=
  if args_len > 2 then
    { shell := s, report := FgReport.invalidArguments, continued := [] }
  else
    match fgSelect args1 s.jobs with
    | .error report => { shell := s, report := report, continued := [] }
    | .ok (job, jobId) =>
      if killOk then
        { shell := handleForegroundJob wait now
            { s with jobs := removeJobById s.jobs jobId } job,
          report := FgReport.foregrounded, continued := [job.pid] }
      else
        { shell := s, report := FgReport.killFailed, continued := [job.pid] }

/-- What `bg` prints or does. -/
inductive BgReport where
  | invalidArguments
  | noStoppedJobs
  | jobDoesNotExist (jobId : Int)
  | alreadyRunning (jobId : Int)
  | killFailed
  | resumed
deriving DecidableEq

/-- The result of `BackgroundCommand::execute`: the shell afterwards, the report,
and the pids `kill(pid, SIGCONT)` was called on. -/
structure BgResult where
  shell : SmallShell
  report : BgReport
  continued : List Int
deriving DecidableEq

/-- The function `JobsList::checkIfStopped`: result code and the value written to
`*res`. -/
def checkIfStopped (jobs : List JobEntry) (jobId : Int) : Int × Option Bool :=
  match getJobById jobs jobId with
  | none => (-1, none)
  | some job => (0, some job.isStopped)

/-- The job `bg` works on: the last stopped job when there is no argument, the
job with the id `atoi(args[1])` otherwise, which must be stopped. -/
def bgSelect (args1 : Option Int) (jobs : List JobEntry) : Except BgReport (JobEntry × Int) :=
  match args1 with
  | none =>
    match getLastStoppedJob jobs with
    | (some job, jobId) =>
      if jobId = -1 then .error BgReport.noStoppedJobs else .ok (job, jobId)
    | (none, _) => .error BgReport.noStoppedJobs
  | some jobId =>
    if jobId = 0 then .error BgReport.invalidArguments
    else
      match getJobById jobs jobId with
      | none => .error (BgReport.jobDoesNotExist jobId)
      | some job =>
        match (checkIfStopped jobs jobId).2 with
        | some false => .error (BgReport.alreadyRunning jobId)
        | _ => .ok (job, jobId)

/-- The function `BackgroundCommand::execute`. `killOk` tells whether
`kill(pid, SIGCONT)` succeeds. -/
def BackgroundCommand.execute (args_len : Nat) (args1 : Option Int) (killOk : Bool)
    (s : SmallShell) : BgResult :=
  if args_len > 2 then
    { shell := s, report := BgReport.invalidArguments, continued := [] }
  else
    match bgSelect args1 s.jobs with
    | .error report => { shell := s, report := report, continued := [] }
    | .ok (job, jobId) =>
      if killOk then
        { shell := { s with jobs := (removeStopMark s.jobs jobId).2 },
          report := BgReport.resumed, continued := [job.pid] }
      else
        { shell := s, report := BgReport.killFailed, continued := [job.pid] }

/-- The wait result "terminated by a signal". -/
def sawSignal : WaitResult :=
  { w := 1, exited := false, signaled := true, stopped := false, continued := false }

/-- A shell running `timeout 100 sleep 50` (pid 7) in the foreground: its timeout
entry is in the list. -/
def timedForeground : SmallShell :=
  { SmallShell.initial with timeouts := [⟨"timeout 100 sleep 50", 7, 100, 100⟩] }

/-- A shell whose table is `sampleJobs`. -/
def sampleShell : SmallShell :=
  { SmallShell.initial with jobs := sampleJobs }

/-- A table in which a running and a stopped entry carry the same job id. -/
def duplicateIdStopped : SmallShell :=
  { SmallShell.initial with
    jobs := [⟨"a", 10, 1, false, 0⟩, ⟨"b", 20, 1, true, 0⟩] }

/-- A table whose only job is stopped and has the id 0. -/
def zeroIdShell : SmallShell :=
  { SmallShell.initial with jobs := [⟨"b", 20, 0, true, 0⟩] }

/-- A table whose only job is stopped and has the id -1. -/
def minusOneIdShell : SmallShell :=
  { SmallShell.initial with jobs := [⟨"b", 20, -1, true, 0⟩] }

/-! ## Strings and the command line

A `std::string` is a list of characters; `npos` is `none`. -/

/-- The constant `WHITESPACE`: space, newline, carriage return, tab, form feed
and vertical tab. -/
def WHITESPACE : List Char :=
  [' ', '\n', '\r', '\t', Char.ofNat 12, Char.ofNat 11]

/-- Membership in `WHITESPACE`. -/
def isWhitespace (c : Char) : Bool :=
  WHITESPACE.contains c

/-- The position of the first character that satisfies `p`. -/
def firstIndex (p : Char → Bool) : List Char → Option Nat
  | [] => none
  | c :: cs => if p c then some 0 else (firstIndex p cs).map (fun i => i + 1)

/-- The position of the last character that satisfies `p`. -/
def lastIndex (p : Char → Bool) : List Char → Option Nat
  | [] => none
  | c :: cs =>
    match lastIndex p cs with
    | some i => some (i + 1)
    | none => if p c then some 0 else none

/-- The call `s.find_first_of(c)` for a one-character set. -/
def find_first_of (s : List Char) (c : Char) : Option Nat :=
  firstIndex (fun x => x == c) s

/-- The call `s.find_last_of(c)` for a one-character set. -/
def find_last_of (s : List Char) (c : Char) : Option Nat :=
  lastIndex (fun x => x == c) s

/-- The call `s.find_first_not_of(WHITESPACE)`. -/
def find_first_not_of (s : List Char) : Option Nat :=
  firstIndex (fun x => !isWhitespace x) s

/-- The call `s.find_last_not_of(WHITESPACE)`. -/
def find_last_not_of (s : List Char) : Option Nat :=
  lastIndex (fun x => !isWhitespace x) s

/-- The function `_ltrim`. -/
def _ltrim (s : List Char) : List Char :=
  match find_first_not_of s with
  | none => []
  | some start => s.drop start

/-- The function `_rtrim`. -/
def _rtrim (s : List Char) : List Char :=
  match find_last_not_of s with
  | none => []
  | some last => s.take (last + 1)

/-- The function `_trim`. -/
def _trim (s : List Char) : List Char :=
  _rtrim (_ltrim s)

/-- Reading whitespace-separated words with `iss >> s`: `word` is the word being
read, in reverse. -/
def readWords : List Char → List Char → List (List Char)
  | word, [] => if word.isEmpty then [] else [word.reverse]
  | word, c :: cs =>
    if isWhitespace c then
      if word.isEmpty then readWords [] cs else word.reverse :: readWords [] cs
    else readWords (c :: word) cs

/-- The function `_parseCommandLine`: the argument words of the line (the bound
`COMMAND_MAX_ARGS` of the array is not modelled). -/
def _parseCommandLine (cmd_line : List Char) : List (List Char) :=
  readWords [] (_trim cmd_line)

/-- The function `_isBackgroundComamnd`: the last character that is not
whitespace is `&`. -/
def _isBackgroundComamnd (cmd_line : List Char) : Bool :=
  match find_last_not_of cmd_line with
  | none => false
  | some idx => cmd_line.get? idx == some '&'

/-- The function `_removeBackgroundSign`: when the last character that is not
whitespace is `&`, it is overwritten by a space and the string ends right after
it. -/
def _removeBackgroundSign (cmd_line : List Char) : List Char :=
  match find_last_not_of cmd_line with
  | none => cmd_line
  | some idx =>
    if cmd_line.get? idx == some '&' then cmd_line.take idx ++ [' '] else cmd_line

/-- The classes of `Command` that `CreateCommand` builds. -/
inductive CommandKind where
  | TimeoutCommand
  | RedirectionCommand
  | PipeCommand
  | ChangePromptCommand
  | LsDirectoryCommand
  | ShowPidCommand
  | GetCurrDirCommand
  | CopyCommand
  | ChangeDirCommand
  | KillCommand
  | JobsCommand
  | ForegroundCommand
  | BackgroundCommand
  | QuitCommand
  | ExternalCommand
deriving DecidableEq

/-- A `Command` object as `CreateCommand` builds it: its class and the
constructor arguments. -/
structure Command where
  kind : CommandKind
  cmd_line : List Char
  args : List (List Char)
  exec : List Char
  bg : Bool
deriving DecidableEq

/-- The chain of comparisons of `CreateCommand` on the first argument `arg0` and
the remaining arguments, after the checks for `timeout`, `>` and `|`. -/
def builtinOrExternal (arg0 : List Char) (rest : List (List Char)) : CommandKind :=
  if arg0 = "chprompt".toList then CommandKind.ChangePromptCommand
  else if arg0 = "ls".toList ∧ rest = [] then CommandKind.LsDirectoryCommand
  else if arg0 = "showpid".toList then CommandKind.ShowPidCommand
  else if arg0 = "pwd".toList then CommandKind.GetCurrDirCommand
  else if arg0 = "cp".toList then CommandKind.CopyCommand
  else if arg0 = "cd".toList then CommandKind.ChangeDirCommand
  else if arg0 = "kill".toList then CommandKind.KillCommand
  else if arg0 = "jobs".toList then CommandKind.JobsCommand
  else if arg0 = "fg".toList then CommandKind.ForegroundCommand
  else if arg0 = "bg".toList then CommandKind.BackgroundCommand
  else if arg0 = "quit".toList then CommandKind.QuitCommand
  else CommandKind.ExternalCommand

/-- The function `SmallShell::CreateCommand`; `none` is `nullptr`. -/
def CreateCommand (cmd_line : List Char) : Option Command :=
  let background := _isBackgroundComamnd cmd_line
  if find_first_not_of cmd_line = none then none
  else
    let cmd_to_execute := _removeBackgroundSign cmd_line
    match _parseCommandLine cmd_to_execute with
    | [] => none
    | arg0 :: rest =>
      let kind :=
        if arg0 = "timeout".toList then CommandKind.TimeoutCommand
        else if find_first_of cmd_line '>' ≠ none then CommandKind.RedirectionCommand
        else if find_first_of cmd_line '|' ≠ none then CommandKind.PipeCommand
        else builtinOrExternal arg0 rest
      some { kind := kind, cmd_line := cmd_line, args := arg0 :: rest,
             exec := cmd_to_execute, bg := background }

/-- The builtin keywords and the class each of them selects. -/
def builtinKeywords : List (List Char × CommandKind) :=
  [("chprompt".toList, CommandKind.ChangePromptCommand),
   ("ls".toList, CommandKind.LsDirectoryCommand),
   ("showpid".toList, CommandKind.ShowPidCommand),
   ("pwd".toList, CommandKind.GetCurrDirCommand),
   ("cp".toList, CommandKind.CopyCommand),
   ("cd".toList, CommandKind.ChangeDirCommand),
   ("kill".toList, CommandKind.KillCommand),
   ("jobs".toList, CommandKind.JobsCommand),
   ("fg".toList, CommandKind.ForegroundCommand),
   ("bg".toList, CommandKind.BackgroundCommand),
   ("quit".toList, CommandKind.QuitCommand)]
/-! ## `kill` -/

/-- A decimal digit. -/
def isDigit (c : Char) : Bool :=
  decide (48 ≤ c.toNat ∧ c.toNat ≤ 57)

/-- The bracket expression `[(-|+)]` of the two regular expressions of
`KillCommand::execute`, read by `std::regex` (ECMAScript grammar): the range
from `(` (code 40) to `|` (code 124), and the characters `+` and `)`. -/
def inBracket (c : Char) : Bool :=
  decide (40 ≤ c.toNat ∧ c.toNat ≤ 124) || c == '+' || c == ')'

/-- The test `std::regex_match(s, std::regex("[(-|+)][0-9]+"))`. -/
def matchSignal : List Char → Bool
  | [] => false
  | c :: ds => inBracket c && !ds.isEmpty && ds.all isDigit

/-- The test `std::regex_match(s, std::regex("[(-|+)]?[0-9]+"))`. -/
def matchJobId (s : List Char) : Bool :=
  (!s.isEmpty && s.all isDigit) || matchSignal s

/-- The exceptions of `std::stoi`. -/
inductive StoiError where
  | invalid_argument
  | out_of_range
deriving DecidableEq

/-- The value of a string of decimal digits. -/
def digitsValue (ds : List Char) : Int :=
  ds.foldl (fun acc c => acc * 10 + ((c.toNat : Int) - 48)) 0

/-- The standard function `std::stoi` in base 10: leading whitespace is
skipped, an optional sign and the longest run of digits are read; no digit at
all throws `invalid_argument`, a value outside the range of `int` throws
`out_of_range`. -/
def stoi (s : List Char) : Except StoiError Int :=
  let body := s.dropWhile isWhitespace
  let negative := body.head? == some '-'
  let unsignedPart :=
    if body.head? == some '-' || body.head? == some '+' then body.drop 1 else body
  let ds := unsignedPart.takeWhile isDigit
  if ds.isEmpty then .error StoiError.invalid_argument
  else
    let v := if negative then -(digitsValue ds) else digitsValue ds
    if v < -2147483648 ∨ v > 2147483647 then .error StoiError.out_of_range
    else .ok v

/-- What `kill` prints, or the exception that leaves `execute`. -/
inductive KillReport where
  | invalidArguments
  | jobDoesNotExist (jobId : Int)
  | killFailed
  | signalSent (sigNum : Int) (pid : Int)
  | threw (e : StoiError)
deriving DecidableEq

/-- The result of `KillCommand::execute`: the report, the calls `kill(pid, sig)`
made, as pairs of pid and signal number, and the job table afterwards. -/
structure KillResult where
  report : KillReport
  sent : List (Int × Int)
  jobs : List JobEntry
deriving DecidableEq

/-- The function `KillCommand::execute` on the argument words `args` (the word
`kill` included); `killOk pid sig` tells whether `kill(pid, sig)` succeeds. -/
def KillCommand.execute (args : List (List Char)) (killOk : Int → Int → Bool)
    (jobs : List JobEntry) : KillResult :=
  match args with
  | [_, arg1, arg2] =>
    if !matchSignal arg1 || !matchJobId arg2 then
      { report := KillReport.invalidArguments, sent := [], jobs := jobs }
    else
      match stoi arg2 with
      | .error e => { report := KillReport.threw e, sent := [], jobs := jobs }
      | .ok jobId =>
        match stoi arg1 with
        | .error e => { report := KillReport.threw e, sent := [], jobs := jobs }
        | .ok sigNum =>
          match getJobById jobs jobId with
          | none => { report := KillReport.jobDoesNotExist jobId, sent := [], jobs := jobs }
          | some thisJob =>
            if killOk thisJob.pid |sigNum| then
              { report := KillReport.signalSent |sigNum| thisJob.pid,
                sent := [(thisJob.pid, |sigNum|)], jobs := jobs }
            else
              { report := KillReport.killFailed, sent := [(thisJob.pid, |sigNum|)],
                jobs := jobs }
  | _ => { report := KillReport.invalidArguments, sent := [], jobs := jobs }
/-! ## Redirection -/

/-- What `RedirectionCommand::execute` reads off its text: the command to run,
the destination, and whether the file is opened for appending. -/
structure RedirectionParse where
  cmd_1 : List Char
  cmd_2 : List Char
  append : Bool
deriving DecidableEq

/-- The first lines of `RedirectionCommand::execute`: `cmd_1` is the text before
the first `>`, `cmd_2` the trimmed text after the last `>`, and the file is
opened for appending when the two positions differ. -/
def RedirectionCommand.parse (exec : List Char) : RedirectionParse :=
  let f_index := find_first_of exec '>'
  let s_index := find_last_of exec '>'
  let cmd_1 := match f_index with
    | none => exec
    | some f => exec.take f
  let cmd_2 := match s_index with
    | none => exec
    | some l => exec.drop (l + 1)
  { cmd_1 := cmd_1, cmd_2 := _trim cmd_2, append := decide (f_index ≠ s_index) }

/-- The system calls and steps of `RedirectionCommand::execute`, in the order it
makes them; `runCommand text` stands for `CreateCommand` on the text and
`execute` of the command it builds, `restoreStdout` for `dup2` of the saved
descriptor onto the standard output and `close` of the saved descriptor. -/
inductive RedirectionStep where
  | dupStdout
  | closeStdout
  | stat (path : List Char)
  | mkdir (path : List Char)
  | openFile (path : List Char) (append : Bool)
  | runCommand (text : List Char)
  | closeFile
  | restoreStdout
deriving DecidableEq

/-- What the file system answers to `RedirectionCommand::execute`: whether
`dup` succeeds, whether `stat` finds a path, whether `mkdir` of a path
succeeds, and whether `open` succeeds. -/
structure FileSystem where
  dupOk : Bool
  found : List Char → Bool
  mkdirOk : List Char → Bool
  openOk : Bool

/-- One `stat` of a directory path, with the `mkdir` when it is missing: the
steps made, and whether `execute` goes on. -/
def checkDirectory (fs : FileSystem) (dir_Path : List Char) : List RedirectionStep × Bool :=
  if fs.found dir_Path then ([RedirectionStep.stat dir_Path], true)
  else if fs.mkdirOk dir_Path then
    ([RedirectionStep.stat dir_Path, RedirectionStep.mkdir dir_Path], true)
  else
    ([RedirectionStep.stat dir_Path, RedirectionStep.mkdir dir_Path,
      RedirectionStep.restoreStdout], false)

/-- The `while` loop over the directory components of the destination and the
check that follows it; the first argument bounds the number of iterations
(every iteration shortens `temp_Path`). -/
def createDirectories (fs : FileSystem) :
    Nat → List Char → List Char → List RedirectionStep × Bool
  | 0, _, _ => ([], true)
  | fuel + 1, dir_Path, temp_Path =>
    let f_dir_index := find_first_of temp_Path '/'
    let l_dir_index := find_last_of temp_Path '/'
    let component := match f_dir_index with
      | none => temp_Path
      | some f => temp_Path.take f
    if f_dir_index ≠ l_dir_index then
      let checked := checkDirectory fs (dir_Path ++ component)
      if checked.2 then
        let rest := createDirectories fs fuel (dir_Path ++ component ++ ['/'])
          (match f_dir_index with
            | none => temp_Path
            | some f => temp_Path.drop (f + 1))
        (checked.1 ++ rest.1, rest.2)
      else checked
    else checkDirectory fs (dir_Path ++ component)

/-- The function `RedirectionCommand::execute`, as the list of its steps. -/
def RedirectionCommand.execute (fs : FileSystem) (exec : List Char) (bg : Bool) :
    List RedirectionStep :=
  let p := RedirectionCommand.parse exec
  if p.cmd_2 = [] then []
  else if !fs.dupOk then [RedirectionStep.dupStdout]
  else
    let dirs :=
      if find_first_of p.cmd_2 '/' ≠ none then
        createDirectories fs (p.cmd_2.length + 1) [] p.cmd_2
      else ([], true)
    if !dirs.2 then [RedirectionStep.dupStdout, RedirectionStep.closeStdout] ++ dirs.1
    else if !fs.openOk then
      [RedirectionStep.dupStdout, RedirectionStep.closeStdout] ++ dirs.1
        ++ [RedirectionStep.openFile p.cmd_2 p.append, RedirectionStep.restoreStdout]
    else
      [RedirectionStep.dupStdout, RedirectionStep.closeStdout] ++ dirs.1
        ++ [RedirectionStep.openFile p.cmd_2 p.append,
            RedirectionStep.runCommand (if bg then p.cmd_1 ++ ['&'] else p.cmd_1),
            RedirectionStep.closeFile, RedirectionStep.restoreStdout]

/-- A file system on which every call succeeds and no directory exists yet. -/
def emptyFileSystem : FileSystem :=
  { dupOk := true, found := fun _ => false, mkdirOk := fun _ => true, openOk := true }

/-! ## Destination paths, pipes and `timeout` arguments -/

/-- The path `d1/d2/.../dn/file` with the directory components `ds` and the last
component `file`. -/
def pathOf : List (List Char) → List Char → List Char
  | [], file => file
  | d :: ds, file => d ++ '/' :: pathOf ds file

/-- The directories on the way to `d1/d2/.../dn/file`: `d1`, `d1/d2`, ...,
`d1/.../dn`, in this order. -/
def directoryPrefixes : List (List Char) → List (List Char)
  | [] => []
  | d :: ds => d :: (directoryPrefixes ds).map (fun p => d ++ '/' :: p)

/-- The steps that check one directory and create it when it is missing. -/
def directorySteps (fs : FileSystem) (path : List Char) : List RedirectionStep :=
  if fs.found path then [RedirectionStep.stat path]
  else [RedirectionStep.stat path, RedirectionStep.mkdir path]

/-- A file system in which `/dir` exists, every other path is missing, and the
empty path can neither be found nor created (`stat` and `mkdir` of the empty
path fail with `ENOENT`). -/
def dirFileSystem : FileSystem :=
  { dupOk := true, found := fun p => p == "/dir".toList,
    mkdirOk := fun p => !p.isEmpty, openOk := true }

/-- What `PipeCommand::execute` reads off its text: the two sub-commands and the
flag for `|&`. -/
structure PipeSplit where
  cmd1 : List Char
  cmd2 : List Char
  err_flag : Bool
deriving DecidableEq

/-- The position after `index`, with `npos + 1` wrapping to 0. -/
def afterIndex (index : Option Nat) : Nat :=
  match index with
  | none => 0
  | some i => i + 1

/-- The first lines of `PipeCommand::execute`: the text is cut at the first `|`;
the flag is set when the first `&` of the text stands right after that `|`, and
then the second sub-command starts after the `&`. -/
def PipeCommand.split (exec : List Char) : PipeSplit :=
  let index := find_first_of exec '|'
  let cmd1 := match index with
    | none => exec
    | some i => exec.take i
  let err_flag := decide (find_first_of exec '&' ≠ none)
  if err_flag && find_first_of exec '&' == some (afterIndex index) then
    { cmd1 := _trim cmd1, cmd2 := _trim (exec.drop (afterIndex index + 1)), err_flag := true }
  else
    { cmd1 := _trim cmd1, cmd2 := _trim (exec.drop (afterIndex index)), err_flag := false }

/-- The descriptor that `PipeCommand::execute` replaces by the write end of the
pipe: 2 (`STDERR_FILENO`) with the flag, 1 (`STDOUT_FILENO`) without. -/
def PipeCommand.to_close (err_flag : Bool) : Nat :=
  if err_flag then 2 else 1

/-- The test whether `s` starts with `pat`. -/
def startsWith : List Char → List Char → Bool
  | _, [] => true
  | [], _ :: _ => false
  | a :: s, b :: pat => a == b && startsWith s pat

/-- The call `s.find(pat)`: the position of the first occurrence of `pat`. -/
def findSubstring : List Char → List Char → Option Nat
  | [], pat => if pat.isEmpty then some 0 else none
  | a :: s, pat =>
    if startsWith (a :: s) pat then some 0 else (findSubstring s pat).map (fun i => i + 1)

/-- How the argument checks of `TimeoutCommand::execute` end: the report
"invalid arguments", an exception of `std::stoi` that leaves `execute`, or the
launch of the command text with the duration. -/
inductive TimeoutReport where
  | invalidArguments
  | threw (e : StoiError)
  | launch (duration : Int) (cmd : List Char)
deriving DecidableEq

/-- The function `TimeoutCommand::execute` up to the arming of the alarm, on the
command line and its argument words (the word `timeout` included); the handler
of the `try` block catches `invalid_argument` only. A `find` that fails gives
`npos`, and `npos + dur.size()` wraps to `dur.size() - 1` (the words of a
command line are not empty and occur in it, so that `find` succeeds on them). -/
def TimeoutCommand.execute (cmd_line : List Char) (args : List (List Char)) : TimeoutReport :=
  match args with
  | _ :: dur :: _ :: _ =>
    let index := match findSubstring cmd_line dur with
      | none => dur.length - 1
      | some i => i + dur.length
    let cmd := _trim (cmd_line.drop index)
    match stoi dur with
    | .error StoiError.invalid_argument => TimeoutReport.invalidArguments
    | .error StoiError.out_of_range => TimeoutReport.threw StoiError.out_of_range
    | .ok duration =>
      if duration ≤ 0 then TimeoutReport.invalidArguments
      else TimeoutReport.launch duration cmd
  | _ => TimeoutReport.invalidArguments

/-- The checks of a list of directory paths one after the other, up to the first
`mkdir` that fails: the steps made, and whether all of them passed. -/
def checkDirectories (fs : FileSystem) : List (List Char) → List RedirectionStep × Bool
  | [] => ([], true)
  | p :: ps =>
    if (checkDirectory fs p).2 then
      ((checkDirectory fs p).1 ++ (checkDirectories fs ps).1, (checkDirectories fs ps).2)
    else checkDirectory fs p

/-! ## The reap loop -/

theorem setStopMark_identity (mark : Bool) (jobs : List JobEntry) (jobId : Int) :
    (setStopMark mark jobs jobId).map JobEntry.identity = jobs.map JobEntry.identity := by
  induction jobs with
  | nil => rfl
  | cons j js ih =>
    unfold setStopMark
    split
    · simp [JobEntry.identity]
    · simp [ih]

theorem addStopMark_identity (jobs : List JobEntry) (jobId : Int) :
    (addStopMark jobs jobId).2.map JobEntry.identity = jobs.map JobEntry.identity := by
  unfold addStopMark
  split <;> simp [setStopMark_identity]

theorem removeStopMark_identity (jobs : List JobEntry) (jobId : Int) :
    (removeStopMark jobs jobId).2.map JobEntry.identity = jobs.map JobEntry.identity := by
  unfold removeStopMark
  split <;> simp [setStopMark_identity]

theorem drop_of_get_some {α : Type} (l : List α) (i : Nat) (a : α) (h : l.get? i = some a) :
    l.drop i = a :: l.drop (i + 1) := by
  rw [List.get?_eq_getElem?, List.getElem?_eq_some] at h
  obtain ⟨hi, rfl⟩ := h
  exact List.drop_eq_getElem_cons hi

theorem take_of_get_some {α : Type} (l : List α) (i : Nat) (a : α) (h : l.get? i = some a) :
    l.take (i + 1) = l.take i ++ [a] := by
  rw [List.get?_eq_getElem?] at h
  rw [List.take_succ, h]; rfl

theorem length_identity (jobs : List JobEntry) :
    (jobs.map JobEntry.identity).length = jobs.length := by simp

theorem loop_identity (waitpid : Int → WaitResult) :
    ∀ (fuel i : Nat) (s : SmallShell), s.jobs.length - i ≤ fuel →
      (removeFinishedJobsLoop waitpid fuel i s).jobs.map JobEntry.identity
          = (s.jobs.map JobEntry.identity).take i
              ++ survivors waitpid ((s.jobs.map JobEntry.identity).drop i)
        ∧ (removeFinishedJobsLoop waitpid fuel i s).timeouts
          = (reapedPids waitpid ((s.jobs.map JobEntry.identity).drop i)).foldl removeByPid s.timeouts
        ∧ (removeFinishedJobsLoop waitpid fuel i s).alarm = s.alarm
        ∧ (removeFinishedJobsLoop waitpid fuel i s).fg_pid = s.fg_pid
        ∧ (removeFinishedJobsLoop waitpid fuel i s).second_fg_pid = s.second_fg_pid := by
  intro fuel
  induction fuel with
  | zero =>
    intro i s h
    have hi : (s.jobs.map JobEntry.identity).length ≤ i := by simp; omega
    simp [removeFinishedJobsLoop, List.take_of_length_le hi, List.drop_of_length_le hi,
      survivors, reapedPids]
  | succ n ih =>
    intro i s h
    unfold removeFinishedJobsLoop
    cases hget : s.jobs.get? i with
    | none =>
      have hi : (s.jobs.map JobEntry.identity).length ≤ i := by
        simp; exact List.get?_eq_none.mp hget
      simp [List.take_of_length_le hi, List.drop_of_length_le hi, survivors, reapedPids]
    | some job =>
      have hlt : i < s.jobs.length := by
        by_contra hc
        rw [List.get?_eq_none.mpr (by omega)] at hget
        cases hget
      have hk : (s.jobs.map JobEntry.identity).get? i = some job.identity := by
        simp [List.get?_eq_getElem?] at hget ⊢
        exact ⟨job, hget, rfl⟩
      have hdrop : (s.jobs.map JobEntry.identity).drop i
          = job.identity :: (s.jobs.map JobEntry.identity).drop (i + 1) :=
        drop_of_get_some _ _ _ hk
      have htake : (s.jobs.map JobEntry.identity).take (i + 1)
          = (s.jobs.map JobEntry.identity).take i ++ [job.identity] :=
        take_of_get_some _ _ _ hk
      have hpid : pidOf job.identity = job.pid := rfl
      simp only []
      split_ifs with h1 h2 h3 h4
      · have hf : (waitpid job.pid).finished = false := by simp [WaitResult.finished, h1]
        obtain ⟨a, b, c⟩ := ih (i + 1) s (by omega)
        refine ⟨?_, ?_, c⟩
        · rw [a, htake, hdrop]; simp [survivors, hpid, hf]
        · rw [b, hdrop]; simp [reapedPids, hpid, hf]
      · have hf : (waitpid job.pid).finished = true := by
          simp [WaitResult.finished, h1]; simpa using h2
        have he : (s.jobs.eraseIdx i).map JobEntry.identity
            = (s.jobs.map JobEntry.identity).take i ++ (s.jobs.map JobEntry.identity).drop (i + 1) := by
          rw [List.eraseIdx_eq_take_drop_succ]; simp [List.map_take, List.map_drop]
        have hlen : ((s.jobs.map JobEntry.identity).take i).length = i := by
          simp; omega
        obtain ⟨a, b, c⟩ := ih i { s with timeouts := removeByPid s.timeouts job.pid,
                                           jobs := s.jobs.eraseIdx i }
          (by simp [List.length_eraseIdx, hlt]; omega)
        refine ⟨?_, ?_, c⟩
        · rw [a]; simp only [he, List.take_left' hlen, List.drop_left' hlen]
          rw [hdrop]; simp [survivors, hpid, hf]
        · rw [b]; simp only [he, List.drop_left' hlen]
          rw [hdrop]; simp [reapedPids, hpid, hf]
      · have hf : (waitpid job.pid).finished = false := by
          simp [WaitResult.finished, h1]; simpa using h2
        obtain ⟨a, b, c⟩ := ih (i + 1) { s with jobs := (addStopMark s.jobs job.jobId).2 }
          (by simp [← length_identity (addStopMark s.jobs job.jobId).2, addStopMark_identity]; omega)
        refine ⟨?_, ?_, c⟩
        · rw [a]; simp only [addStopMark_identity]; rw [htake, hdrop]; simp [survivors, hpid, hf]
        · rw [b]; simp only [addStopMark_identity]; rw [hdrop]; simp [reapedPids, hpid, hf]
      · have hf : (waitpid job.pid).finished = false := by
          simp [WaitResult.finished, h1]; simpa using h2
        obtain ⟨a, b, c⟩ := ih (i + 1) { s with jobs := (removeStopMark s.jobs job.jobId).2 }
          (by simp [← length_identity (removeStopMark s.jobs job.jobId).2, removeStopMark_identity]; omega)
        refine ⟨?_, ?_, c⟩
        · rw [a]; simp only [removeStopMark_identity]; rw [htake, hdrop]; simp [survivors, hpid, hf]
        · rw [b]; simp only [removeStopMark_identity]; rw [hdrop]; simp [reapedPids, hpid, hf]
      · have hf : (waitpid job.pid).finished = false := by
          simp [WaitResult.finished, h1]; simpa using h2
        obtain ⟨a, b, c⟩ := ih (i + 1) s (by omega)
        refine ⟨?_, ?_, c⟩
        · rw [a, htake, hdrop]; simp [survivors, hpid, hf]
        · rw [b, hdrop]; simp [reapedPids, hpid, hf]

theorem setStopMark_jobId (mark : Bool) (jobs : List JobEntry) (jobId : Int) :
    (setStopMark mark jobs jobId).map JobEntry.jobId = jobs.map JobEntry.jobId := by
  induction jobs with
  | nil => rfl
  | cons j js ih =>
    unfold setStopMark
    split
    · simp
    · simp [ih]

theorem getJobById_isSome_of_mem (jobs : List JobEntry) (job : JobEntry) (h : job ∈ jobs) :
    ∃ j, getJobById jobs job.jobId = some j := by
  induction jobs with
  | nil => cases h
  | cons j js ih =>
    unfold getJobById
    split
    · exact ⟨j, rfl⟩
    · rcases List.mem_cons.mp h with rfl | h'
      · contradiction
      · exact ih h'

theorem setStopMark_at (mark : Bool) :
    ∀ (jobs : List JobEntry) (i : Nat) (job : JobEntry), jobs.get? i = some job →
      (jobs.map JobEntry.jobId).Nodup →
      setStopMark mark jobs job.jobId
        = jobs.take i ++ { job with isStopped := mark } :: jobs.drop (i + 1) := by
  intro jobs
  induction jobs with
  | nil => intro i job h; simp at h
  | cons j js ih =>
    intro i job h hn
    cases i with
    | zero =>
      simp at h
      subst h
      simp [setStopMark]
    | succ k =>
      simp at h
      have hmem : job ∈ js := List.getElem?_mem h
      have hne : j.jobId ≠ job.jobId := by
        intro he
        simp only [List.map_cons, List.nodup_cons] at hn
        exact hn.1 (he ▸ List.mem_map_of_mem JobEntry.jobId hmem)
      simp only [List.map_cons, List.nodup_cons] at hn
      simp only [setStopMark, hne, if_false, List.take_succ_cons, List.drop_succ_cons,
        List.cons_append]
      rw [ih k job (by simpa using h) hn.2]

theorem addStopMark_jobId (jobs : List JobEntry) (jobId : Int) :
    (addStopMark jobs jobId).2.map JobEntry.jobId = jobs.map JobEntry.jobId := by
  unfold addStopMark
  split <;> simp [setStopMark_jobId]

theorem removeStopMark_jobId (jobs : List JobEntry) (jobId : Int) :
    (removeStopMark jobs jobId).2.map JobEntry.jobId = jobs.map JobEntry.jobId := by
  unfold removeStopMark
  split <;> simp [setStopMark_jobId]

theorem survivors_map (waitpid : Int → WaitResult) (jobs : List JobEntry) :
    survivors waitpid (jobs.map JobEntry.identity)
      = (jobs.filter (fun j => !(waitpid j.pid).finished)).map JobEntry.identity := by
  unfold survivors
  rw [List.filter_map]
  rfl

theorem reapedPids_map (waitpid : Int → WaitResult) (jobs : List JobEntry) :
    reapedPids waitpid (jobs.map JobEntry.identity)
      = (jobs.filter (fun j => (waitpid j.pid).finished)).map JobEntry.pid := by
  unfold reapedPids
  rw [List.filter_map, List.map_map]
  rfl

theorem removeFinishedJobs_identity (waitpid : Int → WaitResult) (s : SmallShell) :
    (removeFinishedJobs waitpid s).jobs.map JobEntry.identity
      = (s.jobs.filter (fun j => !(waitpid j.pid).finished)).map JobEntry.identity := by
  have h := (loop_identity waitpid s.jobs.length 0 s (by omega)).1
  rw [List.drop_zero, List.take_zero, List.nil_append, survivors_map] at h
  exact h

theorem removeFinishedJobs_timeouts (waitpid : Int → WaitResult) (s : SmallShell) :
    (removeFinishedJobs waitpid s).timeouts
      = ((s.jobs.filter (fun j => (waitpid j.pid).finished)).map JobEntry.pid).foldl
          removeByPid s.timeouts := by
  have h := (loop_identity waitpid s.jobs.length 0 s (by omega)).2.1
  rw [List.drop_zero, reapedPids_map] at h
  exact h

theorem removeFinishedJobs_alarm (waitpid : Int → WaitResult) (s : SmallShell) :
    (removeFinishedJobs waitpid s).alarm = s.alarm :=
  (loop_identity waitpid s.jobs.length 0 s (by omega)).2.2.1

theorem jobId_of_identity (jobs : List JobEntry) :
    jobs.map JobEntry.jobId = (jobs.map JobEntry.identity).map (fun k => k.2.2.1) := by
  simp [JobEntry.identity, Function.comp_def]

theorem removeFinishedJobs_ids_sublist (waitpid : Int → WaitResult) (s : SmallShell) :
    ((removeFinishedJobs waitpid s).jobs.map JobEntry.jobId).Sublist
      (s.jobs.map JobEntry.jobId) := by
  rw [jobId_of_identity, removeFinishedJobs_identity, ← jobId_of_identity]
  exact List.Sublist.map _ (List.filter_sublist _)

theorem removeFinishedJobs_increasing (waitpid : Int → WaitResult) (s : SmallShell)
    (h : IdsIncreasing s.jobs) : IdsIncreasing (removeFinishedJobs waitpid s).jobs :=
  List.Pairwise.sublist (removeFinishedJobs_ids_sublist waitpid s) h

theorem removeJobById_sublist (jobs : List JobEntry) (jobId : Int) :
    (removeJobById jobs jobId).Sublist jobs := by
  induction jobs with
  | nil => exact List.Sublist.refl _
  | cons j js ih =>
    unfold removeJobById
    split
    · exact List.sublist_cons_self j js
    · exact List.Sublist.cons₂ j ih

theorem le_last_of_increasing (jobs : List JobEntry) (back : JobEntry)
    (h : IdsIncreasing jobs) (hb : jobs.getLast? = some back) :
    ∀ j ∈ jobs, j.jobId ≤ back.jobId := by
  obtain ⟨init, rfl⟩ : ∃ init, jobs = init ++ [back] := by
    rcases List.getLast?_eq_some_iff.mp hb with ⟨ys, rfl⟩
    exact ⟨ys, rfl⟩
  intro j hj
  unfold IdsIncreasing at h
  rw [List.map_append, List.pairwise_append] at h
  rcases List.mem_append.mp hj with hj | hj
  · exact le_of_lt (h.2.2 _ (List.mem_map_of_mem _ hj) _ (by simp))
  · simp at hj; subst hj; exact le_refl _

theorem increasing_append_singleton (jobs : List JobEntry) (job : JobEntry)
    (h : IdsIncreasing jobs) (hlt : ∀ j ∈ jobs, j.jobId < job.jobId) :
    IdsIncreasing (jobs ++ [job]) := by
  unfold IdsIncreasing at h ⊢
  rw [List.map_append, List.pairwise_append]
  refine ⟨h, by simp, ?_⟩
  intro a ha b hb
  simp at hb
  subst hb
  obtain ⟨j, hj, rfl⟩ := List.mem_map.mp ha
  exact hlt j hj

theorem wrapInt_of_fits (x : Int) (h : fitsInt x) : wrapInt x = x := by
  unfold fitsInt INT_MIN INT_MAX at h
  unfold wrapInt
  omega

theorem fitsInt_wrapInt (x : Int) : fitsInt (wrapInt x) := by
  unfold fitsInt INT_MIN INT_MAX wrapInt
  omega

theorem wrapInt_eq_iff (x : Int) : wrapInt x = x ↔ fitsInt x := by
  constructor
  · intro h
    rw [← h]
    exact fitsInt_wrapInt x
  · exact wrapInt_of_fits x

theorem addJob_increasing (waitpid : Int → WaitResult) (now : Int) (s : SmallShell)
    (cmd : String) (pid : Int) (isStopped : Bool) (h : IdsIncreasing s.jobs)
    (hr : ∀ back, (removeFinishedJobs waitpid s).jobs.getLast? = some back →
      fitsInt (back.jobId + 1)) :
    IdsIncreasing (addJob waitpid now s cmd pid isStopped).jobs := by
  have h1 := removeFinishedJobs_increasing waitpid s h
  unfold addJob
  simp only []
  apply increasing_append_singleton _ _ h1
  intro j hj
  cases hb : (removeFinishedJobs waitpid s).jobs.getLast? with
  | none =>
    rw [List.getLast?_eq_none_iff] at hb
    rw [hb] at hj
    cases hj
  | some back =>
    have := le_last_of_increasing _ back h1 hb j hj
    simp only []
    rw [wrapInt_of_fits _ (hr back hb)]
    omega

/-! ## `addExistingJob` -/

theorem insertBeforeGreater_none (job : JobEntry) (jobs : List JobEntry)
    (h : ∀ j ∈ jobs, j.jobId ≤ job.jobId) : insertBeforeGreater job jobs = none := by
  induction jobs with
  | nil => rfl
  | cons j js ih =>
    have hj : ¬ j.jobId > job.jobId := by
      have := h j (List.mem_cons_self _ _); omega
    simp [insertBeforeGreater, hj, ih (fun k hk => h k (List.mem_cons_of_mem _ hk))]

theorem insertBeforeGreater_some (job : JobEntry) (jobs : List JobEntry)
    (h : ∃ j ∈ jobs, job.jobId < j.jobId) :
    insertBeforeGreater job jobs
      = some (jobs.takeWhile (fun j => decide (j.jobId ≤ job.jobId))
          ++ job :: jobs.dropWhile (fun j => decide (j.jobId ≤ job.jobId))) := by
  induction jobs with
  | nil => obtain ⟨j, hj, _⟩ := h; cases hj
  | cons j js ih =>
    by_cases hj : j.jobId > job.jobId
    · have hle : ¬ j.jobId ≤ job.jobId := by omega
      simp [insertBeforeGreater, hj, List.takeWhile, List.dropWhile, hle]
    · have hle : j.jobId ≤ job.jobId := by omega
      have h2 : ∃ k ∈ js, job.jobId < k.jobId := by
        obtain ⟨k, hk, hlt⟩ := h
        rcases List.mem_cons.mp hk with rfl | hk
        · omega
        · exact ⟨k, hk, hlt⟩
      simp [insertBeforeGreater, hj, List.takeWhile, List.dropWhile, hle, ih h2]

theorem takeWhile_all (p : JobEntry → Bool) (jobs : List JobEntry)
    (h : ∀ j ∈ jobs, p j = true) : jobs.takeWhile p = jobs ∧ jobs.dropWhile p = [] := by
  induction jobs with
  | nil => exact ⟨rfl, rfl⟩
  | cons j js ih =>
    have hj := h j (List.mem_cons_self _ _)
    have := ih (fun k hk => h k (List.mem_cons_of_mem _ hk))
    simp [List.takeWhile, List.dropWhile, hj, this]

/-- On a table with increasing ids that does not hold the id of the job,
`addExistingJob` succeeds and puts the job before the first greater id. -/
theorem addExistingJob_absent (jobs : List JobEntry) (job : JobEntry)
    (hs : IdsIncreasing jobs) (ha : ∀ j ∈ jobs, j.jobId ≠ job.jobId) :
    addExistingJob jobs job
      = (0, jobs.takeWhile (fun j => decide (j.jobId ≤ job.jobId))
          ++ job :: jobs.dropWhile (fun j => decide (j.jobId ≤ job.jobId))) := by
  unfold addExistingJob
  cases hb : jobs.getLast? with
  | none =>
    rw [List.getLast?_eq_none_iff] at hb
    subst hb
    rfl
  | some back =>
    simp only []
    have hmem : back ∈ jobs := List.mem_of_getLast?_eq_some hb
    split_ifs with hlt
    · have hall : ∀ j ∈ jobs, decide (j.jobId ≤ job.jobId) = true := by
        intro j hj
        have := le_last_of_increasing jobs back hs hb j hj
        simp; omega
      obtain ⟨e1, e2⟩ := takeWhile_all _ jobs hall
      rw [e1, e2]
    · have hgt : job.jobId < back.jobId := by
        have := ha back hmem
        omega
      rw [insertBeforeGreater_some job jobs ⟨back, hmem, hgt⟩]

theorem increasing_insert (jobs : List JobEntry) (job : JobEntry)
    (hs : IdsIncreasing jobs) (ha : ∀ j ∈ jobs, j.jobId ≠ job.jobId) :
    IdsIncreasing (jobs.takeWhile (fun j => decide (j.jobId ≤ job.jobId))
        ++ job :: jobs.dropWhile (fun j => decide (j.jobId ≤ job.jobId))) := by
  induction jobs with
  | nil => simp [IdsIncreasing]
  | cons j js ih =>
    have hs2 : IdsIncreasing js := by
      unfold IdsIncreasing at hs ⊢
      simp only [List.map_cons, List.pairwise_cons] at hs
      exact hs.2
    have hjs : ∀ k ∈ js, j.jobId < k.jobId := by
      unfold IdsIncreasing at hs
      simp only [List.map_cons, List.pairwise_cons] at hs
      intro k hk
      exact hs.1 _ (List.mem_map_of_mem _ hk)
    have ih2 := ih hs2 (fun k hk => ha k (List.mem_cons_of_mem _ hk))
    have hne := ha j (List.mem_cons_self _ _)
    by_cases hle : j.jobId ≤ job.jobId
    · simp only [List.takeWhile, List.dropWhile, hle, decide_True, List.cons_append]
      unfold IdsIncreasing at ih2 ⊢
      simp only [List.map_cons, List.pairwise_cons]
      refine ⟨?_, ih2⟩
      intro a ha2
      obtain ⟨k, hk, rfl⟩ := List.mem_map.mp ha2
      rcases List.mem_append.mp hk with hk | hk
      · exact hjs k ((List.takeWhile_sublist _).subset hk)
      · rcases List.mem_cons.mp hk with rfl | hk
        · omega
        · exact hjs k ((List.dropWhile_sublist _).subset hk)
    · simp only [List.takeWhile, List.dropWhile, hle, decide_False, List.nil_append]
      unfold IdsIncreasing at hs ⊢
      simp only [List.map_cons, List.pairwise_cons] at hs ⊢
      refine ⟨?_, hs⟩
      intro a ha2
      rcases List.mem_cons.mp ha2 with rfl | ha2
      · omega
      · have := hs.1 a ha2
        omega

theorem removeJobById_split (front rest : List JobEntry) (job : JobEntry)
    (h : ∀ j ∈ front, j.jobId ≠ job.jobId) :
    removeJobById (front ++ job :: rest) job.jobId = front ++ rest := by
  induction front with
  | nil => simp [removeJobById]
  | cons j js ih =>
    have hj := h j (List.mem_cons_self _ _)
    simp [removeJobById, hj, ih (fun k hk => h k (List.mem_cons_of_mem _ hk))]

theorem takeWhile_split (p : JobEntry → Bool) (front rest : List JobEntry)
    (h1 : ∀ j ∈ front, p j = true) (h2 : ∀ j ∈ rest.head?, p j = false) :
    (front ++ rest).takeWhile p = front ∧ (front ++ rest).dropWhile p = rest := by
  induction front with
  | nil =>
    cases rest with
    | nil => exact ⟨rfl, rfl⟩
    | cons r rs =>
      have hr : p r = false := h2 r (by simp)
      simp [List.takeWhile, List.dropWhile, hr]
  | cons j js ih =>
    have hj := h1 j (List.mem_cons_self _ _)
    have := ih (fun k hk => h1 k (List.mem_cons_of_mem _ hk))
    simp [List.takeWhile, List.dropWhile, hj, this]

/-! ## `getLastStoppedJob` -/

theorem lastStoppedScan_spec (jobs : List JobEntry) :
    (lastStoppedScan jobs = (none, -1) ∧ ∀ j ∈ jobs, j.isStopped = false)
    ∨ ∃ front j rest, jobs = front ++ j :: rest ∧ (∀ k ∈ front, k.isStopped = false)
        ∧ j.isStopped = true ∧ lastStoppedScan jobs = (some j, j.jobId) := by
  induction jobs with
  | nil => left; simp [lastStoppedScan]
  | cons a as ih =>
    by_cases ha : a.isStopped = true
    · right
      exact ⟨[], a, as, rfl, by simp, ha, by simp [lastStoppedScan, ha]⟩
    · have ha2 : a.isStopped = false := by simpa using ha
      rcases ih with ⟨h1, h2⟩ | ⟨front, j, rest, e, h1, h2, h3⟩
      · left
        refine ⟨by simp [lastStoppedScan, ha2, h1], ?_⟩
        intro k hk
        rcases List.mem_cons.mp hk with rfl | hk
        · exact ha2
        · exact h2 k hk
      · right
        refine ⟨a :: front, j, rest, by simp [e], ?_, h2, by simp [lastStoppedScan, ha2, h3]⟩
        intro k hk
        rcases List.mem_cons.mp hk with rfl | hk
        · exact ha2
        · exact h1 k hk

/-! ## The claims on the job table -/

theorem reachable_increasing (s : SmallShell) (h : ReachableInRange s) :
    IdsIncreasing s.jobs := by
  induction h with
  | init s h0 => rw [h0]; simp [IdsIncreasing]
  | step s op _ ho hr ih =>
    cases op with
    | addJob waitpid now cmd pid isStopped =>
      exact addJob_increasing waitpid now s cmd pid isStopped ih hr
    | removeFinishedJobs waitpid => exact removeFinishedJobs_increasing waitpid s ih
    | removeJobById jobId =>
      exact List.Pairwise.sublist ((removeJobById_sublist s.jobs jobId).map _) ih
    | addStopMark jobId =>
      show IdsIncreasing (addStopMark s.jobs jobId).2
      unfold IdsIncreasing
      rw [addStopMark_jobId]
      exact ih
    | removeStopMark jobId =>
      show IdsIncreasing (removeStopMark s.jobs jobId).2
      unfold IdsIncreasing
      rw [removeStopMark_jobId]
      exact ih
    | addExistingJob job =>
      show IdsIncreasing (addExistingJob s.jobs job).2
      rw [addExistingJob_absent s.jobs job ih ho]
      exact increasing_insert s.jobs job ih ho

theorem removeFinishedJobsLoop_noChange :
    ∀ (fuel current : Nat) (s : SmallShell),
      removeFinishedJobsLoop (fun _ => noChange) fuel current s = s := by
  intro fuel
  induction fuel with
  | zero => intro current s; rfl
  | succ fuel ih =>
    intro current s
    unfold removeFinishedJobsLoop
    cases s.jobs.get? current with
    | none => rfl
    | some job =>
      have h1 : ¬ (noChange.w = -1) := by decide
      have h2 : ((noChange.exited || noChange.signaled) && decide (noChange.w > 0)) = false := by
        decide
      have h3 : (noChange.stopped && decide (noChange.w > 0)) = false := by decide
      have h4 : (noChange.continued && decide (noChange.w > 0)) = false := by decide
      simp only [h1, h2, h3, h4, if_false, Bool.false_eq_true]
      exact ih (current + 1) s

/-- A reap in which no process has changed leaves the shell as it is. -/
theorem removeFinishedJobs_noChange (s : SmallShell) :
    removeFinishedJobs (fun _ => noChange) s = s :=
  removeFinishedJobsLoop_noChange _ _ s

theorem reachedByLaunches_reachable (s : SmallShell) (h : ReachedByLaunches s) :
    Reachable s := by
  induction h with
  | init => exact Reachable.init _ rfl
  | launch s waitpid now cmd pid isStopped _ ih =>
    exact Reachable.step s (.addJob waitpid now cmd pid isStopped) ih trivial
  | reap s waitpid _ ih =>
    exact Reachable.step s (.removeFinishedJobs waitpid) ih trivial

theorem wrapInt_succ (n : Nat) : wrapInt (wrapInt (2 + n) + 1) = wrapInt (2 + (n + 1 : Nat)) := by
  unfold wrapInt
  push_cast
  omega

/-- A reap over three jobs in which the process of the middle one has exited and
the two others have not changed erases the middle job. -/
theorem removeFinishedJobs_middle (a u v : JobEntry) (q : Int) (alarm : Option Int)
    (fg second : Int) (ha : a.pid ≠ q) (hu : u.pid = q) (hv : v.pid ≠ q) :
    removeFinishedJobs (exitOf q)
        { jobs := [a, u, v], timeouts := [], alarm := alarm, fg_pid := fg,
          second_fg_pid := second }
      = { jobs := [a, v], timeouts := [], alarm := alarm, fg_pid := fg,
          second_fg_pid := second } := by
  have e1 : exitOf q a.pid = noChange := by simp [exitOf, ha]
  have e2 : exitOf q u.pid = sawExit := by simp [exitOf, hu]
  have e3 : exitOf q v.pid = noChange := by simp [exitOf, hv]
  have h1 : ¬ (noChange.w = -1) := by decide
  have h2 : ((noChange.exited || noChange.signaled) && decide (noChange.w > 0)) = false := by
    decide
  have h3 : (noChange.stopped && decide (noChange.w > 0)) = false := by decide
  have h4 : (noChange.continued && decide (noChange.w > 0)) = false := by decide
  have k1 : ¬ (sawExit.w = -1) := by decide
  have k2 : ((sawExit.exited || sawExit.signaled) && decide (sawExit.w > 0)) = true := by
    decide
  show removeFinishedJobsLoop (exitOf q) 3 0 _ = _
  rw [removeFinishedJobsLoop]
  simp only [List.get?, e1, h1, h2, h3, h4, if_false, Bool.false_eq_true]
  rw [removeFinishedJobsLoop]
  simp only [List.get?, e2, k1, k2, if_false, if_true, List.eraseIdx, removeByPid]
  rw [removeFinishedJobsLoop]
  simp only [List.get?, e3, h1, h2, h3, h4, if_false, Bool.false_eq_true]
  rfl

theorem addJob_noChange (now : Int) (s : SmallShell) (cmd : String) (pid : Int)
    (isStopped : Bool) :
    addJob (fun _ => noChange) now s cmd pid isStopped
      = { s with
          jobs := s.jobs ++
            [⟨cmd, pid, (match s.jobs.getLast? with
                | none => 1
                | some back => wrapInt (back.jobId + 1)), isStopped, now⟩] } := by
  unfold addJob
  rw [removeFinishedJobs_noChange]

/-- Launches and reaps alone lead to `launchedShell n pid isStopped`, for every
number `n` of launches. -/
theorem launchedShell_reached (n : Nat) :
    ∀ (pid : Int) (isStopped : Bool), pid ≠ 10 →
      ReachedByLaunches (launchedShell n pid isStopped) := by
  induction n with
  | zero =>
    intro pid isStopped _
    have h := ReachedByLaunches.launch _ (fun _ => noChange) 0 "b" pid isStopped
      (ReachedByLaunches.launch _ (fun _ => noChange) 0 "a" 10 false ReachedByLaunches.init)
    rw [addJob_noChange, addJob_noChange] at h
    exact h
  | succ n ih =>
    intro pid isStopped hpid
    obtain ⟨q, hq10, hqp⟩ : ∃ q : Int, q ≠ 10 ∧ q ≠ pid := by
      by_cases h : pid = 20
      · exact ⟨21, by decide, by omega⟩
      · exact ⟨20, by decide, fun e => h e.symm⟩
    have h := ReachedByLaunches.reap _ (exitOf q)
      (ReachedByLaunches.launch _ (fun _ => noChange) 0 "b" pid isStopped (ih q false hq10))
    rw [addJob_noChange] at h
    have e := removeFinishedJobs_middle ⟨"a", 10, 1, false, 0⟩
      ⟨"b", q, wrapInt (2 + n), false, 0⟩
      ⟨"b", pid, wrapInt (wrapInt (2 + n) + 1), isStopped, 0⟩ q none (-1) (-1)
      (fun e => hq10 e.symm) rfl (fun e => hqp e.symm)
    rw [wrapInt_succ] at e
    have e2 : ({ launchedShell n q false with
        jobs := (launchedShell n q false).jobs ++
          [⟨"b", pid, (match (launchedShell n q false).jobs.getLast? with
              | none => 1
              | some back => wrapInt (back.jobId + 1)), isStopped, 0⟩] } : SmallShell)
        = { jobs := [⟨"a", 10, 1, false, 0⟩, ⟨"b", q, wrapInt (2 + n), false, 0⟩,
              ⟨"b", pid, wrapInt (wrapInt (2 + n) + 1), isStopped, 0⟩],
            timeouts := [], alarm := none, fg_pid := -1, second_fg_pid := -1 } := rfl
    rw [e2, wrapInt_succ, e] at h
    exact h

/-- C1 (as amended). Starting from an empty job table, after any sequence of
job-table steps (addJob, removeFinishedJobs under any wait results,
removeJobById, addStopMark, removeStopMark, and addExistingJob of a job whose
id is not in the table) in which every addJob finds, after its reap, a last id
whose successor is still an `int` (the last id is below `INT_MAX`), the job ids
in list order are strictly increasing, hence pairwise distinct. -/
theorem reachable_ids_increasing (s : SmallShell) (h : ReachableInRange s) :
    IdsIncreasing s.jobs ∧ (s.jobs.map JobEntry.jobId).Nodup := by
  have hi := reachable_increasing s h
  exact ⟨hi, List.Pairwise.imp (fun hab => ne_of_lt hab) hi⟩

theorem reachable_ids_increasing_witness :
    IdsIncreasing sampleReached.jobs ∧ (sampleReached.jobs.map JobEntry.jobId).Nodup :=
  reachable_ids_increasing sampleReached
    (ReachableInRange.step _ (.addExistingJob ⟨"sleep 1", 101, 1, true, 7⟩)
      (ReachableInRange.step _ (.removeJobById 1)
        (ReachableInRange.step _ (.addJob (fun _ => noChange) 2 "sleep 2 &" 102 false)
          (ReachableInRange.step _ (.addJob (fun _ => noChange) 1 "sleep 1 &" 101 false)
            (ReachableInRange.init SmallShell.initial rfl) trivial
            (fun back hb => by
              rw [removeFinishedJobs_noChange] at hb
              simp [SmallShell.initial] at hb))
          trivial
          (fun back hb => by
            rw [removeFinishedJobs_noChange] at hb
            obtain rfl : (⟨"sleep 1 &", 101, 1, false, 1⟩ : JobEntry) = back :=
              Option.some.inj hb
            decide))
        trivial trivial)
      (by unfold JobsStep.enabled; decide) trivial)

/-- C1, as stated, fails when the ids reach `INT_MAX`: the shell
`launchedShell 2147483645 21 false` is reached from the empty table (by
launches and reaps alone), its ids 1 and 2147483647 are increasing, and the
next addJob, a step of the claim, appends the id -2147483648: the ids of the
shell it leads to are not increasing. -/
theorem reachable_ids_wrap :
    Reachable (launchedShell 2147483645 21 false)
    ∧ (launchedShell 2147483645 21 false).jobs.map JobEntry.jobId = [1, 2147483647]
    ∧ Reachable (addJob (fun _ => noChange) 0 (launchedShell 2147483645 21 false) "c" 22 false)
    ∧ (addJob (fun _ => noChange) 0 (launchedShell 2147483645 21 false) "c" 22 false).jobs.map
        JobEntry.jobId = [1, 2147483647, -2147483648]
    ∧ ¬ IdsIncreasing
        (addJob (fun _ => noChange) 0 (launchedShell 2147483645 21 false) "c" 22 false).jobs := by
  have hr := reachedByLaunches_reachable _
    (launchedShell_reached 2147483645 21 false (by decide))
  refine ⟨hr, by decide, ?_, by decide, by decide⟩
  exact Reachable.step _ (.addJob (fun _ => noChange) 0 "c" 22 false) hr trivial

/-- C2 (as amended). For every job table and wait results, addJob reaps and then
appends the new job as the last entry, with the given pid and stop mark, and
with id 1 when the reaped table is empty and otherwise the `int` value of the
last remaining id plus 1: the last remaining id plus 1 when that sum is an
`int` (the last id is below `INT_MAX`), and `INT_MIN` when the last id is
`INT_MAX`; the entries before it are the entries that survived the reap, in
their order, each with its id, pid, command and start time. -/
theorem addJob_appends (waitpid : Int → WaitResult) (now : Int) (s : SmallShell)
    (cmd : String) (pid : Int) (isStopped : Bool) :
    ∃ newId : Int,
      (addJob waitpid now s cmd pid isStopped).jobs
          = (removeFinishedJobs waitpid s).jobs
            ++ [{ cmd := cmd, pid := pid, jobId := newId, isStopped := isStopped,
                  elapsed := now }]
        ∧ ((removeFinishedJobs waitpid s).jobs = [] → newId = 1)
        ∧ (∀ back, (removeFinishedJobs waitpid s).jobs.getLast? = some back →
            newId = wrapInt (back.jobId + 1)
            ∧ (fitsInt (back.jobId + 1) → newId = back.jobId + 1)
            ∧ (back.jobId = INT_MAX → newId = INT_MIN))
        ∧ (removeFinishedJobs waitpid s).jobs.map JobEntry.identity
            = (s.jobs.filter (fun j => !(waitpid j.pid).finished)).map JobEntry.identity := by
  refine ⟨match (removeFinishedJobs waitpid s).jobs.getLast? with
          | none => 1
          | some back => wrapInt (back.jobId + 1), rfl, ?_, ?_,
          removeFinishedJobs_identity waitpid s⟩
  · intro h; rw [h]; rfl
  · intro back h
    rw [h]
    refine ⟨rfl, fun hf => wrapInt_of_fits _ hf, fun hm => ?_⟩
    simp only [hm]
    decide

/-- C2, as stated, fails on a table whose last id is `INT_MAX` (a table that
launches and reaps alone lead to): addJob appends the new job with the id
-2147483648, which is not the last id plus 1. -/
theorem addJob_wraps_at_max :
    ReachedByLaunches (launchedShell 2147483645 20 false)
    ∧ (launchedShell 2147483645 20 false).jobs.getLast?
        = some ⟨"b", 20, 2147483647, false, 0⟩
    ∧ (addJob (fun _ => noChange) 5 (launchedShell 2147483645 20 false) "c" 30 true).jobs
        = (launchedShell 2147483645 20 false).jobs ++ [⟨"c", 30, -2147483648, true, 5⟩]
    ∧ (-2147483648 : Int) ≠ 2147483647 + 1 := by
  refine ⟨launchedShell_reached 2147483645 20 false (by decide), by decide, by decide,
    by decide⟩

/-- C3. On a table with strictly increasing ids, removing a job of the table by
its id and handing the same job back with addExistingJob succeeds and gives back
exactly the original sequence of entries, whatever the position of the job. -/
theorem removeJobById_addExistingJob (jobs : List JobEntry) (job : JobEntry)
    (hs : IdsIncreasing jobs) (hm : job ∈ jobs) :
    addExistingJob (removeJobById jobs job.jobId) job = (0, jobs) := by
  obtain ⟨front, rest, rfl⟩ := List.append_of_mem hm
  unfold IdsIncreasing at hs
  rw [List.map_append, List.map_cons, List.pairwise_append, List.pairwise_cons] at hs
  obtain ⟨hf, ⟨hjr, hr⟩, hfr⟩ := hs
  have hfront : ∀ j ∈ front, j.jobId < job.jobId := fun j hj =>
    hfr _ (List.mem_map_of_mem _ hj) _ (List.mem_cons_self _ _)
  have hrest : ∀ j ∈ rest, job.jobId < j.jobId := fun j hj =>
    hjr _ (List.mem_map_of_mem _ hj)
  rw [removeJobById_split front rest job (fun j hj => ne_of_lt (hfront j hj))]
  have hs2 : IdsIncreasing (front ++ rest) := by
    unfold IdsIncreasing
    rw [List.map_append, List.pairwise_append]
    exact ⟨hf, hr, fun a ha b hb => hfr a ha b (List.mem_cons_of_mem _ hb)⟩
  have ha : ∀ j ∈ front ++ rest, j.jobId ≠ job.jobId := by
    intro j hj
    rcases List.mem_append.mp hj with hj | hj
    · exact ne_of_lt (hfront j hj)
    · exact ne_of_gt (hrest j hj)
  rw [addExistingJob_absent _ job hs2 ha]
  obtain ⟨e1, e2⟩ := takeWhile_split (fun j => decide (j.jobId ≤ job.jobId)) front rest
    (fun j hj => by have := hfront j hj; simp; omega)
    (fun j hj => by
      have hj2 : j ∈ rest := List.mem_of_mem_head? hj
      have := hrest j hj2
      simp; omega)
  rw [e1, e2]

theorem removeJobById_addExistingJob_witness :
    addExistingJob (removeJobById sampleJobs (2 : Int)) ⟨"b", 102, 2, true, 0⟩ = (0, sampleJobs) :=
  removeJobById_addExistingJob sampleJobs ⟨"b", 102, 2, true, 0⟩ (by decide) (by decide)

/-- C4. On a table with strictly increasing ids: when the id of the job is not in
the table, addExistingJob returns 0 and the table becomes the old entries with
the job put before the first entry with a greater id (at the end when there is
none), again strictly increasing; it returns -1 only when the id of the job is
already in the table, and then the table is unchanged. -/
theorem addExistingJob_spec (jobs : List JobEntry) (job : JobEntry)
    (hs : IdsIncreasing jobs) :
    ((∀ j ∈ jobs, j.jobId ≠ job.jobId) →
        addExistingJob jobs job
          = (0, jobs.takeWhile (fun j => decide (j.jobId ≤ job.jobId))
              ++ job :: jobs.dropWhile (fun j => decide (j.jobId ≤ job.jobId)))
        ∧ IdsIncreasing (addExistingJob jobs job).2
        ∧ (addExistingJob jobs job).2.Perm (job :: jobs))
    ∧ ((addExistingJob jobs job).1 = -1 →
        (∃ j ∈ jobs, j.jobId = job.jobId) ∧ (addExistingJob jobs job).2 = jobs) := by
  constructor
  · intro ha
    have e := addExistingJob_absent jobs job hs ha
    refine ⟨e, ?_, ?_⟩
    · rw [e]; exact increasing_insert jobs job hs ha
    · rw [e]
      refine List.perm_middle.trans (List.Perm.cons _ ?_)
      rw [List.takeWhile_append_dropWhile]
  · intro h
    unfold addExistingJob at h ⊢
    cases hb : jobs.getLast? with
    | none => rw [hb] at h; simp at h
    | some back =>
      rw [hb] at h
      simp only [] at h ⊢
      by_cases hlt : back.jobId < job.jobId
      · simp [hlt] at h
      · simp only [hlt, if_false] at h ⊢
        cases hi : insertBeforeGreater job jobs with
        | some l => rw [hi] at h; simp at h
        | none =>
          refine ⟨⟨back, List.mem_of_getLast?_eq_some hb, ?_⟩, rfl⟩
          by_contra hne
          have hgt : job.jobId < back.jobId := by omega
          rw [insertBeforeGreater_some job jobs ⟨back, List.mem_of_getLast?_eq_some hb, hgt⟩] at hi
          cases hi

theorem addExistingJob_spec_witness :
    addExistingJob [⟨"a", 101, 1, false, 0⟩, ⟨"c", 103, 3, false, 0⟩] ⟨"b", 102, 2, true, 0⟩
      = (0, sampleJobs) :=
  ((addExistingJob_spec [⟨"a", 101, 1, false, 0⟩, ⟨"c", 103, 3, false, 0⟩]
      ⟨"b", 102, 2, true, 0⟩ (by decide)).1 (by decide)).1

/-- C5. On a table with strictly increasing ids, getLastStoppedJob returns the
stopped entry with the greatest id and writes that id; when no entry is stopped
(the empty table included) it returns no entry and writes -1. -/
theorem getLastStoppedJob_spec (jobs : List JobEntry) (hs : IdsIncreasing jobs) :
    ((∀ j ∈ jobs, j.isStopped = false) → getLastStoppedJob jobs = (none, -1))
    ∧ ((∃ j ∈ jobs, j.isStopped = true) →
        ∃ j, getLastStoppedJob jobs = (some j, j.jobId) ∧ j ∈ jobs ∧ j.isStopped = true
          ∧ ∀ k ∈ jobs, k.isStopped = true → k.jobId ≤ j.jobId) := by
  by_cases hnil : jobs = []
  · subst hnil
    exact ⟨fun _ => rfl, fun ⟨j, hj, _⟩ => by cases hj⟩
  · have he : jobs.isEmpty = false := by
      cases jobs with
      | nil => exact absurd rfl hnil
      | cons a as => rfl
    unfold getLastStoppedJob
    rw [he]
    simp only [Bool.false_eq_true, if_false]
    rcases lastStoppedScan_spec jobs.reverse with ⟨h1, h2⟩ | ⟨front, j, rest, e, h1, h2, h3⟩
    · refine ⟨fun _ => h1, ?_⟩
      rintro ⟨j, hj, hst⟩
      have := h2 j (List.mem_reverse.mpr hj)
      rw [this] at hst
      cases hst
    · have ej : jobs = rest.reverse ++ j :: front.reverse := by
        have := congrArg List.reverse e
        simpa using this
      have hjm : j ∈ jobs := by rw [ej]; simp
      constructor
      · intro hall
        have := hall j hjm
        rw [this] at h2
        cases h2
      · intro _
        refine ⟨j, h3, hjm, h2, ?_⟩
        intro k hk hst
        unfold IdsIncreasing at hs
        rw [ej, List.map_append, List.pairwise_append] at hs
        rw [ej] at hk
        rcases List.mem_append.mp hk with hk | hk
        · exact le_of_lt (hs.2.2 _ (List.mem_map_of_mem _ hk) _
            (List.mem_map_of_mem _ (List.mem_cons_self _ _)))
        · rcases List.mem_cons.mp hk with rfl | hk
          · exact le_refl _
          · have := h1 k (List.mem_reverse.mp hk)
            rw [this] at hst
            cases hst

theorem getLastStoppedJob_spec_witness :
    ∃ j, getLastStoppedJob sampleJobs = (some j, j.jobId) ∧ j ∈ sampleJobs
      ∧ j.isStopped = true ∧ ∀ k ∈ sampleJobs, k.isStopped = true → k.jobId ≤ j.jobId :=
  (getLastStoppedJob_spec sampleJobs (by decide)).2 (by decide)

/-! ## The reap -/

theorem removeByPid_sublist (timeouts : List TimeoutEntry) (pid : Int) :
    (removeByPid timeouts pid).Sublist timeouts := by
  induction timeouts with
  | nil => exact List.Sublist.refl _
  | cons e es ih =>
    unfold removeByPid
    split
    · exact List.sublist_cons_self e es
    · exact List.Sublist.cons₂ e ih

theorem removeByPid_gone (timeouts : List TimeoutEntry) (pid : Int)
    (hn : (timeouts.map TimeoutEntry.pid).Nodup) :
    ∀ e ∈ removeByPid timeouts pid, e.pid ≠ pid := by
  induction timeouts with
  | nil => intro e he; cases he
  | cons a as ih =>
    simp only [List.map_cons, List.nodup_cons] at hn
    intro e he
    unfold removeByPid at he
    split at he
    · rename_i hap
      intro hep
      exact hn.1 (by rw [hap, ← hep]; exact List.mem_map_of_mem _ he)
    · rename_i hap
      rcases List.mem_cons.mp he with rfl | he
      · exact hap
      · exact ih hn.2 e he

theorem foldl_removeByPid_sublist (pids : List Int) :
    ∀ timeouts : List TimeoutEntry, (pids.foldl removeByPid timeouts).Sublist timeouts := by
  induction pids with
  | nil => intro t; exact List.Sublist.refl _
  | cons p ps ih =>
    intro t
    exact (ih (removeByPid t p)).trans (removeByPid_sublist t p)

theorem foldl_removeByPid_gone (pids : List Int) :
    ∀ timeouts : List TimeoutEntry, (timeouts.map TimeoutEntry.pid).Nodup →
      ∀ p ∈ pids, ∀ e ∈ pids.foldl removeByPid timeouts, e.pid ≠ p := by
  induction pids with
  | nil => intro t _ p hp; cases hp
  | cons q qs ih =>
    intro t hn p hp e he
    have hn2 : ((removeByPid t q).map TimeoutEntry.pid).Nodup :=
      ((removeByPid_sublist t q).map _).nodup hn
    rcases List.mem_cons.mp hp with rfl | hp
    · exact removeByPid_gone t p hn e ((foldl_removeByPid_sublist qs _).subset he)
    · exact ih (removeByPid t q) hn2 p hp e he

/-- With at most one timeout entry per pid, the reap leaves no timeout entry for
the pid of a job it removed. -/
theorem removeFinishedJobs_timeouts_gone (waitpid : Int → WaitResult) (s : SmallShell)
    (ht : (s.timeouts.map TimeoutEntry.pid).Nodup) :
    ∀ j ∈ s.jobs, (waitpid j.pid).finished = true →
      ∀ e ∈ (removeFinishedJobs waitpid s).timeouts, e.pid ≠ j.pid := by
  intro j hj hf e he
  rw [removeFinishedJobs_timeouts] at he
  refine foldl_removeByPid_gone _ s.timeouts ht j.pid ?_ e he
  exact List.mem_map_of_mem _ (List.mem_filter.mpr ⟨hj, hf⟩)

theorem handleAlarmsLoop_fixed (now : Int) (hnow : now ≠ -1) :
    ∀ (timeouts : List TimeoutEntry) (t : Nat),
      handleAlarmsLoop (fun _ => now) t timeouts
        = { timeouts := timeouts.filter (fun e => decide (now < e.time_to_kill)),
            kills := (timeouts.filter (fun e => decide (e.time_to_kill ≤ now))).map
              TimeoutEntry.pid,
            t := t + timeouts.length,
            returned := false } := by
  intro timeouts
  induction timeouts with
  | nil => intro t; simp [handleAlarmsLoop]
  | cons e es ih =>
    intro t
    unfold handleAlarmsLoop
    simp only [hnow, if_false]
    by_cases hk : now - e.timestamp ≥ e.duration
    · have h1 : e.time_to_kill ≤ now := by unfold TimeoutEntry.time_to_kill; omega
      have h2 : ¬ now < e.time_to_kill := by omega
      simp only [hk, if_true, ih (t + 1), List.filter_cons, h1, h2, decide_True,
        decide_False, List.map_cons, List.length_cons]
      simp
      omega
    · have h1 : ¬ e.time_to_kill ≤ now := by unfold TimeoutEntry.time_to_kill; omega
      have h2 : now < e.time_to_kill := by omega
      simp only [hk, if_false, ih (t + 1), List.filter_cons, h1, h2, decide_True,
        decide_False, List.length_cons]
      simp
      omega

theorem findMinTimeoutLoop_fixed (now : Int) :
    ∀ (timeouts : List TimeoutEntry) (t : Nat) (min : Int),
      (findMinTimeoutLoop (fun _ => now) t min timeouts).1 ≤ min
      ∧ (∀ e ∈ timeouts,
          (findMinTimeoutLoop (fun _ => now) t min timeouts).1 ≤ e.time_to_kill - now)
      ∧ ((findMinTimeoutLoop (fun _ => now) t min timeouts).1 = min
          ∨ ∃ e ∈ timeouts,
            (findMinTimeoutLoop (fun _ => now) t min timeouts).1 = e.time_to_kill - now) := by
  intro timeouts
  induction timeouts with
  | nil => intro t min; simp [findMinTimeoutLoop]
  | cons e es ih =>
    intro t min
    unfold findMinTimeoutLoop
    simp only [TimeoutEntry.timeToLive]
    by_cases hlt : e.time_to_kill - now < min
    · rw [if_pos hlt]
      obtain ⟨a, b, c⟩ := ih (t + 1) (e.time_to_kill - now)
      refine ⟨by omega, ?_, ?_⟩
      · intro x hx
        rcases List.mem_cons.mp hx with rfl | hx
        · exact a
        · exact b x hx
      · rcases c with c | ⟨x, hx, c⟩
        · exact Or.inr ⟨e, List.mem_cons_self _ _, c⟩
        · exact Or.inr ⟨x, List.mem_cons_of_mem _ hx, c⟩
    · rw [if_neg hlt]
      obtain ⟨a, b, c⟩ := ih (t + 1) min
      refine ⟨a, ?_, ?_⟩
      · intro x hx
        rcases List.mem_cons.mp hx with rfl | hx
        · omega
        · exact b x hx
      · rcases c with c | ⟨x, hx, c⟩
        · exact Or.inl c
        · exact Or.inr ⟨x, List.mem_cons_of_mem _ hx, c⟩

/-- With a fixed clock, `findMinTimeout` on a list that is not empty returns the
least `time_to_kill - now` of the list. -/
theorem findMinTimeout_fixed (now : Int) (t : Nat) (timeouts : List TimeoutEntry)
    (hne : timeouts ≠ []) :
    (∃ e ∈ timeouts, (findMinTimeout (fun _ => now) t timeouts).1 = e.time_to_kill - now)
    ∧ ∀ e ∈ timeouts, (findMinTimeout (fun _ => now) t timeouts).1 ≤ e.time_to_kill - now := by
  cases timeouts with
  | nil => exact absurd rfl hne
  | cons front rest =>
    unfold findMinTimeout
    simp only [TimeoutEntry.timeToLive]
    obtain ⟨_, b, c⟩ := findMinTimeoutLoop_fixed now (front :: rest) (t + 1)
      (front.time_to_kill - now)
    refine ⟨?_, b⟩
    rcases c with c | c
    · exact ⟨front, List.mem_cons_self _ _, c⟩
    · exact c

theorem handleAlarms_fixed (waitpid : Int → WaitResult) (now : Int) (t : Nat)
    (s : SmallShell) (hnow : now ≠ -1) :
    (handleAlarms waitpid (fun _ => now) t s).shell.timeouts
        = (removeFinishedJobs waitpid s).timeouts.filter
            (fun e => decide (now < e.time_to_kill))
    ∧ (handleAlarms waitpid (fun _ => now) t s).kills
        = ((removeFinishedJobs waitpid s).timeouts.filter
            (fun e => decide (e.time_to_kill ≤ now))).map TimeoutEntry.pid
    ∧ (handleAlarms waitpid (fun _ => now) t s).shell.jobs
        = (removeFinishedJobs waitpid s).jobs := by
  unfold handleAlarms
  simp only [handleAlarmsLoop_fixed now hnow, Bool.false_eq_true, if_false]
  split_ifs <;> exact ⟨rfl, rfl, rfl⟩

/-- C7. With a clock that reads `now` throughout the sweep (a successful reading,
so not the error value -1): after handleAlarms the timeout list is, in the
original order, the entries left by the initial reap whose deadline
`timestamp + duration` is strictly later than `now`, and the kill signal went to
the pids of exactly the entries whose deadline is at or before `now`. -/
theorem handleAlarms_sweep (waitpid : Int → WaitResult) (clock : Nat → Int) (now : Int)
    (t : Nat) (s : SmallShell) (hc : ∀ n, clock n = now) (hnow : now ≠ -1) :
    (handleAlarms waitpid clock t s).shell.timeouts
        = (removeFinishedJobs waitpid s).timeouts.filter
            (fun e => decide (now < e.timestamp + e.duration))
    ∧ (handleAlarms waitpid clock t s).kills
        = ((removeFinishedJobs waitpid s).timeouts.filter
            (fun e => decide (e.timestamp + e.duration ≤ now))).map TimeoutEntry.pid := by
  obtain rfl : clock = fun _ => now := funext hc
  have h := handleAlarms_fixed waitpid now t s hnow
  exact ⟨h.1, h.2.1⟩

theorem handleAlarms_sweep_witness :
    (handleAlarms (fun _ => noChange) (fun _ => 105) 0 sampleTimeouts).shell.timeouts
        = [⟨"a", 20, 100, 9⟩, ⟨"c", 22, 100, 7⟩]
    ∧ (handleAlarms (fun _ => noChange) (fun _ => 105) 0 sampleTimeouts).kills = [21, 23] :=
  ⟨(handleAlarms_sweep (fun _ => noChange) (fun _ => 105) 105 0 sampleTimeouts
      (fun _ => rfl) (by decide)).1.trans (by decide),
   (handleAlarms_sweep (fun _ => noChange) (fun _ => 105) 105 0 sampleTimeouts
      (fun _ => rfl) (by decide)).2.trans (by decide)⟩

/-- What holds of the re-arming when the clock reads `now` throughout the sweep
(a successful reading) and no alarm is pending on entry: at the end of
handleAlarms, if entries remain the alarm is armed for the least
`deadline - now` over the remaining entries, and if none remains no alarm is
armed. -/
theorem handleAlarms_rearms (waitpid : Int → WaitResult) (clock : Nat → Int) (now : Int)
    (t : Nat) (s : SmallShell) (hc : ∀ n, clock n = now) (hnow : now ≠ -1)
    (h0 : s.alarm = none) :
    ((handleAlarms waitpid clock t s).shell.timeouts ≠ [] →
      ∃ e ∈ (handleAlarms waitpid clock t s).shell.timeouts,
        (handleAlarms waitpid clock t s).shell.alarm = some (e.timestamp + e.duration - now)
        ∧ ∀ x ∈ (handleAlarms waitpid clock t s).shell.timeouts,
            e.timestamp + e.duration - now ≤ x.timestamp + x.duration - now)
    ∧ ((handleAlarms waitpid clock t s).shell.timeouts = [] →
        (handleAlarms waitpid clock t s).shell.alarm = none) := by
  obtain rfl : clock = fun _ => now := funext hc
  have hk := (handleAlarms_fixed waitpid now t s hnow).1
  generalize hl : (removeFinishedJobs waitpid s).timeouts.filter
      (fun e => decide (now < e.time_to_kill)) = kept at hk
  have ha : (handleAlarms waitpid (fun _ => now) t s).shell.alarm
      = if (findMinTimeout (fun _ => now)
              (t + (removeFinishedJobs waitpid s).timeouts.length) kept).1 > 0
        then some (findMinTimeout (fun _ => now)
              (t + (removeFinishedJobs waitpid s).timeouts.length) kept).1
        else none := by
    unfold handleAlarms
    simp only [handleAlarmsLoop_fixed now hnow, Bool.false_eq_true, if_false, hl]
    split_ifs
    · rfl
    · show (removeFinishedJobs waitpid s).alarm = none
      rw [removeFinishedJobs_alarm, h0]
  rw [hk, ha]
  constructor
  · intro hne
    obtain ⟨⟨e, he, hv⟩, hmin⟩ := findMinTimeout_fixed now
      (t + (removeFinishedJobs waitpid s).timeouts.length) kept hne
    have hpos : now < e.time_to_kill := by
      have : e ∈ (removeFinishedJobs waitpid s).timeouts.filter
          (fun e => decide (now < e.time_to_kill)) := hl ▸ he
      simpa using (List.mem_filter.mp this).2
    refine ⟨e, he, ?_, ?_⟩
    · rw [hv, if_pos (by omega)]; rfl
    · intro x hx
      have := hmin x hx
      rw [hv] at this
      exact this
  · intro hnil
    rw [hnil]
    rfl

theorem handleAlarms_rearms_witness :
    (handleAlarms (fun _ => noChange) (fun _ => 105) 0 sampleTimeouts).shell.timeouts ≠ []
    ∧ ∃ e ∈ (handleAlarms (fun _ => noChange) (fun _ => 105) 0 sampleTimeouts).shell.timeouts,
        (handleAlarms (fun _ => noChange) (fun _ => 105) 0 sampleTimeouts).shell.alarm
          = some (e.timestamp + e.duration - 105)
        ∧ ∀ x ∈ (handleAlarms (fun _ => noChange) (fun _ => 105) 0 sampleTimeouts).shell.timeouts,
            e.timestamp + e.duration - 105 ≤ x.timestamp + x.duration - 105 :=
  ⟨by decide,
   (handleAlarms_rearms (fun _ => noChange) (fun _ => 105) 105 0 sampleTimeouts
      (fun _ => rfl) (by decide) rfl).1 (by decide)⟩

/-- C9, at the failing input: on the one-entry list of `dueShell`, read at the
second of its deadline, findMinTimeout returns 0, the value it returns for the
empty list. -/
theorem findMinTimeout_zero_on_nonempty :
    dueShell.timeouts ≠ []
    ∧ (findMinTimeout (fun _ => 105) 0 dueShell.timeouts).1 = 0
    ∧ (findMinTimeout (fun _ => 105) 0 []).1 = 0 := by
  decide

/-- C10, at the failing input: with an entry due in the current second and its
alarm pending, the arming step for a new command of duration 3 finds "0" and
replaces the pending alarm by one that fires 3 seconds later, past the deadline
of the entry in the list. -/
theorem armAlarm_postpones_due_entry :
    (findMinTimeout (fun _ => 105) 0 dueShell.timeouts).1 = 0
    ∧ dueShell.alarm = some 1
    ∧ (armAlarm (fun _ => 105) 0 dueShell 3).1.alarm = some 3
    ∧ (armAlarm (fun _ => 105) 0 dueShell 3).1.timeouts = dueShell.timeouts := by
  decide

/-- The arming step on an empty timeout list arms the alarm for the duration of
the new command. -/
theorem armAlarm_empty (clock : Nat → Int) (t : Nat) (s : SmallShell) (duration : Int)
    (h : s.timeouts = []) : (armAlarm clock t s duration).1.alarm = some duration := by
  simp [armAlarm, findMinTimeout, h]

/-- C8, at the failing input: a sweep at second 105 over one entry of deadline
106, during which the clock moves on to 106 between the loop and
`findMinTimeout`. The loop keeps the entry (its deadline has not passed at
105), `findMinTimeout` reads 0 seconds to live for it (at 106), the value it
also returns for the empty list, and the re-arming is skipped: an entry remains
and no alarm is armed, neither for 1 second (the minimum at 105) nor for any
other time. -/
theorem handleAlarms_clock_tick :
    tickShell.timeouts = [⟨"timeout 6 sleep 100 &", 7, 100, 6⟩]
    ∧ tickShell.alarm = none
    ∧ tickClock 0 = 105 ∧ tickClock 1 = 106
    ∧ (handleAlarms (fun _ => noChange) tickClock 0 tickShell).shell.timeouts
        = tickShell.timeouts
    ∧ (handleAlarms (fun _ => noChange) tickClock 0 tickShell).kills = []
    ∧ (findMinTimeout tickClock 1 tickShell.timeouts).1 = 0
    ∧ (handleAlarms (fun _ => noChange) tickClock 0 tickShell).shell.alarm = none := by
  decide

/-! ## `removeByPid` and the timeout-list invariant -/

theorem removeByPid_others (timeouts : List TimeoutEntry) (pid : Int) :
    (removeByPid timeouts pid).filter (fun e => decide (e.pid ≠ pid))
      = timeouts.filter (fun e => decide (e.pid ≠ pid)) := by
  induction timeouts with
  | nil => rfl
  | cons e es ih =>
    unfold removeByPid
    split
    · rename_i h
      simp [List.filter_cons, h]
    · rename_i h
      simpa [List.filter_cons, h] using ih

theorem removeByPid_absent (timeouts : List TimeoutEntry) (pid : Int)
    (h : ∀ e ∈ timeouts, e.pid ≠ pid) : removeByPid timeouts pid = timeouts := by
  induction timeouts with
  | nil => rfl
  | cons e es ih =>
    have he := h e (List.mem_cons_self _ _)
    simp [removeByPid, he, ih (fun x hx => h x (List.mem_cons_of_mem _ hx))]

theorem removeByPid_onePerPid (timeouts : List TimeoutEntry) (pid : Int)
    (h : OnePerPid timeouts) : OnePerPid (removeByPid timeouts pid) :=
  ((removeByPid_sublist timeouts pid).map _).nodup h

theorem handleAlarmsLoop_sublist (clock : Nat → Int) :
    ∀ (timeouts : List TimeoutEntry) (t : Nat),
      (handleAlarmsLoop clock t timeouts).timeouts.Sublist timeouts := by
  intro timeouts
  induction timeouts with
  | nil => intro t; simp [handleAlarmsLoop]
  | cons e es ih =>
    intro t
    unfold handleAlarmsLoop
    simp only []
    split_ifs
    · exact List.Sublist.refl _
    · exact List.Sublist.cons _ (ih (t + 1))
    · exact List.Sublist.cons₂ _ (ih (t + 1))

theorem handleAlarms_timeouts_sublist (waitpid : Int → WaitResult) (clock : Nat → Int)
    (t : Nat) (s : SmallShell) :
    (handleAlarms waitpid clock t s).shell.timeouts.Sublist s.timeouts := by
  have h1 : (removeFinishedJobs waitpid s).timeouts.Sublist s.timeouts := by
    rw [removeFinishedJobs_timeouts]
    exact foldl_removeByPid_sublist _ _
  have h2 := handleAlarmsLoop_sublist clock (removeFinishedJobs waitpid s).timeouts t
  unfold handleAlarms
  simp only []
  split_ifs <;> exact h2.trans h1

theorem removeByPid_first (pre post : List TimeoutEntry) (e : TimeoutEntry) (pid : Int)
    (hpre : ∀ x ∈ pre, x.pid ≠ pid) (he : e.pid = pid) :
    removeByPid (pre ++ e :: post) pid = pre ++ post := by
  induction pre with
  | nil => simp [removeByPid, he]
  | cons a as ih =>
    have ha := hpre a (List.mem_cons_self _ _)
    simp [removeByPid, ha, ih (fun x hx => hpre x (List.mem_cons_of_mem _ hx))]

/-- C11 (as amended). For every timeout list and pid, removeByPid erases the
first entry with that pid and nothing else: a list `pre ++ e :: post` in which
`e` is the first entry with the pid becomes `pre ++ post`, so that the entries
with a different pid are unchanged and in their original order, and when no
entry has the pid the list is unchanged; when the list has at most one entry
per pid, no entry with that pid remains (the result is the list without the
entries of that pid). -/
theorem removeByPid_spec (timeouts : List TimeoutEntry) (pid : Int) :
    (∀ pre e post, timeouts = pre ++ e :: post → (∀ x ∈ pre, x.pid ≠ pid) → e.pid = pid →
        removeByPid timeouts pid = pre ++ post)
    ∧ (removeByPid timeouts pid).filter (fun e => decide (e.pid ≠ pid))
        = timeouts.filter (fun e => decide (e.pid ≠ pid))
    ∧ ((∀ e ∈ timeouts, e.pid ≠ pid) → removeByPid timeouts pid = timeouts)
    ∧ (OnePerPid timeouts →
        (∀ e ∈ removeByPid timeouts pid, e.pid ≠ pid)
        ∧ removeByPid timeouts pid = timeouts.filter (fun e => decide (e.pid ≠ pid))) := by
  refine ⟨?_, removeByPid_others timeouts pid, removeByPid_absent timeouts pid, ?_⟩
  · intro pre e post hsplit hpre he
    rw [hsplit]
    exact removeByPid_first pre post e pid hpre he
  · intro h
    have hg := removeByPid_gone timeouts pid h
    refine ⟨hg, ?_⟩
    rw [← removeByPid_others timeouts pid]
    exact (List.filter_eq_self.mpr (fun e he => by simpa using hg e he)).symm

theorem removeByPid_spec_witness :
    removeByPid sampleTimeouts.timeouts 21
      = [⟨"a", 20, 100, 9⟩, ⟨"c", 22, 100, 7⟩, ⟨"d", 23, 100, 1⟩] :=
  ((removeByPid_spec sampleTimeouts.timeouts 21).2.2.2 (by decide)).2.trans (by decide)

/-- C11, as stated, fails on a list with two entries for one pid: after
removeByPid of that pid the second of them is still in the list. -/
theorem removeByPid_leaves_second_entry :
    twoForPid = [⟨"timeout 5 a", 7, 100, 5⟩, ⟨"timeout 9 b", 8, 100, 9⟩,
                 ⟨"timeout 7 c", 7, 101, 7⟩]
    ∧ removeByPid twoForPid 7 = [⟨"timeout 9 b", 8, 100, 9⟩, ⟨"timeout 7 c", 7, 101, 7⟩]
    ∧ ∃ e ∈ removeByPid twoForPid 7, e.pid = 7 := by
  decide

/-- C12 (as amended). The property "at most one entry per pid" holds for the
empty list and is preserved by removeByPid, by handleAlarms, and by addTimeout
of a pid that has no entry in the list. -/
theorem onePerPid_preserved :
    OnePerPid []
    ∧ (∀ (timeouts : List TimeoutEntry) (now : Int) (cmd : String) (pid duration : Int),
        OnePerPid timeouts → (∀ e ∈ timeouts, e.pid ≠ pid) →
          OnePerPid (addTimeout timeouts now cmd pid duration))
    ∧ (∀ (timeouts : List TimeoutEntry) (pid : Int),
        OnePerPid timeouts → OnePerPid (removeByPid timeouts pid))
    ∧ (∀ (waitpid : Int → WaitResult) (clock : Nat → Int) (t : Nat) (s : SmallShell),
        OnePerPid s.timeouts → OnePerPid (handleAlarms waitpid clock t s).shell.timeouts) := by
  refine ⟨by simp [OnePerPid], ?_, removeByPid_onePerPid, ?_⟩
  · intro timeouts now cmd pid duration h hfresh
    unfold OnePerPid addTimeout at *
    rw [List.map_append, List.nodup_append]
    refine ⟨h, by simp, ?_⟩
    intro a ha hb
    simp at hb
    subst hb
    obtain ⟨e, he, hpe⟩ := List.mem_map.mp ha
    exact hfresh e he hpe
  · intro waitpid clock t s h
    exact ((handleAlarms_timeouts_sublist waitpid clock t s).map _).nodup h

theorem onePerPid_preserved_witness :
    OnePerPid (addTimeout sampleTimeouts.timeouts 105 "timeout 3 e" 24 3)
    ∧ OnePerPid (removeByPid sampleTimeouts.timeouts 21)
    ∧ OnePerPid (handleAlarms (fun _ => noChange) (fun _ => 105) 0 sampleTimeouts).shell.timeouts :=
  ⟨onePerPid_preserved.2.1 sampleTimeouts.timeouts 105 "timeout 3 e" 24 3 (by decide) (by decide),
   onePerPid_preserved.2.2.1 sampleTimeouts.timeouts 21 (by decide),
   onePerPid_preserved.2.2.2 (fun _ => noChange) (fun _ => 105) 0 sampleTimeouts (by decide)⟩

/-- C12, as stated, fails for addTimeout of a pid that already has an entry: the
list had one entry per pid before and has two entries for pid 21 after. -/
theorem addTimeout_duplicates_pid :
    OnePerPid sampleTimeouts.timeouts
    ∧ ¬ OnePerPid (addTimeout sampleTimeouts.timeouts 105 "timeout 3 e" 21 3) := by
  decide

/-! ## Foreground protocols, `fg` and `bg`: the claims -/

/-- C16. Whatever the blocking waits report (exit, termination by signal, stop or
failure), when handleForeground returns the primary foreground slot is -1, in
the single-process protocol, in the protocol of `fg` (also when reached through
`ForegroundCommand::execute`), and in the pipe protocol; after the pipe protocol
the secondary slot is -1 as well. -/
theorem foreground_slots_cleared (wait wait2 : WaitResult)
    (waitpid waitpid2 : Int → WaitResult) (now now2 : Int) (s : SmallShell)
    (cmd cmd2 : String) (pid pid2 : Int) (job : JobEntry) (args_len : Nat)
    (args1 : Option Int) (killOk : Bool) :
    (handleForeground wait waitpid now s cmd pid).fg_pid = -1
    ∧ (handleForegroundJob wait now s job).fg_pid = -1
    ∧ (handleForegroundPipe wait wait2 waitpid waitpid2 now now2 s cmd cmd2 pid pid2).fg_pid = -1
    ∧ (handleForegroundPipe wait wait2 waitpid waitpid2 now now2 s cmd cmd2 pid pid2).second_fg_pid
        = -1
    ∧ ((ForegroundCommand.execute args_len args1 killOk wait now s).report
          = FgReport.foregrounded →
        (ForegroundCommand.execute args_len args1 killOk wait now s).shell.fg_pid = -1) := by
  have hjob : ∀ (s2 : SmallShell) (j : JobEntry), (handleForegroundJob wait now s2 j).fg_pid = -1 := by
    intro s2 j
    unfold handleForegroundJob
    simp only []
    split_ifs <;> rfl
  refine ⟨?_, hjob s job, ?_, ?_, ?_⟩
  · unfold handleForeground
    simp only []
    split_ifs <;> rfl
  · unfold handleForegroundPipe
    simp only []
    split_ifs <;> rfl
  · unfold handleForegroundPipe
    simp only []
    split_ifs <;> rfl
  · intro hr
    by_cases hlen : args_len > 2
    · simp [ForegroundCommand.execute, hlen] at hr
    · cases hsel : fgSelect args1 s.jobs with
      | error report =>
        have hne : report ≠ FgReport.foregrounded := by
          intro h
          subst h
          cases args1 with
          | none =>
            simp only [fgSelect] at hsel
            cases hg : getLastJob s.jobs with
            | mk found fid =>
              rw [hg] at hsel
              cases found with
              | none => simp at hsel
              | some j =>
                simp only [] at hsel
                split_ifs at hsel
                simp at hsel
          | some id =>
            simp only [fgSelect] at hsel
            split_ifs at hsel
            · simp at hsel
            · cases hg : getJobById s.jobs id with
              | none => rw [hg] at hsel; simp at hsel
              | some j => rw [hg] at hsel; simp at hsel
        simp only [ForegroundCommand.execute, hlen, if_false, hsel] at hr
        exact absurd hr hne
      | ok found =>
        obtain ⟨j, jobId⟩ := found
        cases killOk with
        | false => simp [ForegroundCommand.execute, hlen, hsel] at hr
        | true =>
          simp only [ForegroundCommand.execute, hlen, if_false, hsel, if_true]
          exact hjob _ j

/-- The single-process protocol on a normal exit: the timeout entry of the pid
is cancelled with removeByPid and the job table is left alone. -/
theorem handleForeground_exited (wait : WaitResult) (waitpid : Int → WaitResult)
    (now : Int) (s : SmallShell) (cmd : String) (pid : Int)
    (hw : wait.w ≠ -1) (hs : wait.stopped = false) (he : wait.exited = true) :
    (handleForeground wait waitpid now s cmd pid).timeouts = removeByPid s.timeouts pid
    ∧ (handleForeground wait waitpid now s cmd pid).jobs = s.jobs := by
  simp [handleForeground, hw, hs, he]

/-- The single-process protocol on a stop: the table is the one `addJob` makes,
with a stopped entry for the pid at its end. -/
theorem handleForeground_stopped (wait : WaitResult) (waitpid : Int → WaitResult)
    (now : Int) (s : SmallShell) (cmd : String) (pid : Int)
    (hw : wait.w ≠ -1) (hs : wait.stopped = true) :
    ∃ newId : Int,
      (handleForeground wait waitpid now s cmd pid).jobs
        = (removeFinishedJobs waitpid { s with fg_pid := pid }).jobs
          ++ [{ cmd := cmd, pid := pid, jobId := newId, isStopped := true, elapsed := now }] := by
  simp [handleForeground, hw, hs, addJob]

/-- C17, at the failing input: the foreground child (pid 7, run under
`timeout`) is reported terminated by a signal; when the protocol returns the
timeout entry of pid 7 is still in the list, in handleForeground(Command*, pid)
and in handleForeground(JobEntry*) alike. -/
theorem handleForeground_signaled_keeps_timeout :
    sawSignal.signaled = true ∧ sawSignal.w ≠ -1
    ∧ (handleForeground sawSignal (fun _ => noChange) 150 timedForeground
        "timeout 100 sleep 50" 7).timeouts = [⟨"timeout 100 sleep 50", 7, 100, 100⟩]
    ∧ (handleForegroundJob sawSignal 150 timedForeground
        ⟨"timeout 100 sleep 50", 7, 1, false, 100⟩).timeouts
        = [⟨"timeout 100 sleep 50", 7, 100, 100⟩] := by
  decide

theorem getJobById_of_mem (jobs : List JobEntry) (job : JobEntry)
    (hn : (jobs.map JobEntry.jobId).Nodup) (hm : job ∈ jobs) :
    getJobById jobs job.jobId = some job := by
  induction jobs with
  | nil => cases hm
  | cons j js ih =>
    simp only [List.map_cons, List.nodup_cons] at hn
    unfold getJobById
    rcases List.mem_cons.mp hm with rfl | hm'
    · simp
    · have hne : j.jobId ≠ job.jobId := fun he =>
        hn.1 (he ▸ List.mem_map_of_mem JobEntry.jobId hm')
      simp only [hne, if_false]
      exact ih hn.2 hm'

theorem nodup_of_increasing (jobs : List JobEntry) (h : IdsIncreasing jobs) :
    (jobs.map JobEntry.jobId).Nodup :=
  List.Pairwise.imp (fun hab => ne_of_lt hab) h

/-- Taking an entry out of an increasing table by its id and handing back an
entry with the same id puts the new entry at the place of the old one. -/
theorem reinsert_at (front rest : List JobEntry) (job back : JobEntry)
    (hs : IdsIncreasing (front ++ job :: rest)) (hid : back.jobId = job.jobId) :
    addExistingJob (removeJobById (front ++ job :: rest) job.jobId) back
      = (0, front ++ back :: rest) := by
  unfold IdsIncreasing at hs
  rw [List.map_append, List.map_cons, List.pairwise_append, List.pairwise_cons] at hs
  obtain ⟨hf, ⟨hjr, hr⟩, hfr⟩ := hs
  have hfront : ∀ j ∈ front, j.jobId < back.jobId := fun j hj =>
    hid ▸ hfr _ (List.mem_map_of_mem _ hj) _ (List.mem_cons_self _ _)
  have hrest : ∀ j ∈ rest, back.jobId < j.jobId := fun j hj =>
    hid ▸ hjr _ (List.mem_map_of_mem _ hj)
  rw [removeJobById_split front rest job (fun j hj => hid ▸ ne_of_lt (hfront j hj))]
  have hs2 : IdsIncreasing (front ++ rest) := by
    unfold IdsIncreasing
    rw [List.map_append, List.pairwise_append]
    exact ⟨hf, hr, fun a ha b hb => hfr a ha b (List.mem_cons_of_mem _ hb)⟩
  have ha : ∀ j ∈ front ++ rest, j.jobId ≠ back.jobId := by
    intro j hj
    rcases List.mem_append.mp hj with hj | hj
    · exact ne_of_lt (hfront j hj)
    · exact ne_of_gt (hrest j hj)
  rw [addExistingJob_absent _ back hs2 ha]
  obtain ⟨e1, e2⟩ := takeWhile_split (fun j => decide (j.jobId ≤ back.jobId)) front rest
    (fun j hj => by have := hfront j hj; simp; omega)
    (fun j hj => by
      have hj2 : j ∈ rest := List.mem_of_mem_head? hj
      have := hrest j hj2
      simp; omega)
  rw [e1, e2]

/-- C18. On a table with strictly increasing ids, `fg` on a job of the table
(named by its id, or as the last job when `fg` has no argument), with the
continue signal succeeding and the job then observed stopped, sends the
continue signal to the pid of the job and leaves the table as it was but for the
entry of the job, which stands at its old place under its old id and pid,
marked Stopped: the sequence of ids and pids is the same. -/
theorem fg_keeps_identity (args_len : Nat) (args1 : Option Int) (wait : WaitResult)
    (now : Int) (s : SmallShell) (job : JobEntry)
    (hs : IdsIncreasing s.jobs) (hm : job ∈ s.jobs) (hlen : args_len ≤ 2)
    (hsel : (args1 = some job.jobId ∧ job.jobId ≠ 0)
      ∨ (args1 = none ∧ s.jobs.getLast? = some job ∧ job.jobId ≠ -1))
    (hw : wait.w ≠ -1) (hst : wait.stopped = true) :
    (ForegroundCommand.execute args_len args1 true wait now s).continued = [job.pid]
    ∧ (∃ front rest, s.jobs = front ++ job :: rest
        ∧ (ForegroundCommand.execute args_len args1 true wait now s).shell.jobs
            = front ++ { job with isStopped := true, elapsed := now } :: rest)
    ∧ (ForegroundCommand.execute args_len args1 true wait now s).shell.jobs.map
          (fun j => (j.jobId, j.pid))
        = s.jobs.map (fun j => (j.jobId, j.pid)) := by
  have hsel2 : fgSelect args1 s.jobs = .ok (job, job.jobId) := by
    rcases hsel with ⟨h1, h2⟩ | ⟨h1, h2, h3⟩
    · simp [fgSelect, h1, h2, getJobById_of_mem s.jobs job (nodup_of_increasing _ hs) hm]
    · simp [fgSelect, h1, getLastJob, h2, h3]
  obtain ⟨front, rest, hsplit⟩ := List.append_of_mem hm
  have hre := reinsert_at front rest job { job with isStopped := true, elapsed := now }
    (hsplit ▸ hs) rfl
  have hjobs : (ForegroundCommand.execute args_len args1 true wait now s).shell.jobs
      = front ++ { job with isStopped := true, elapsed := now } :: rest := by
    have hl : ¬ args_len > 2 := by omega
    simp only [ForegroundCommand.execute, hl, if_false, hsel2, if_true, handleForegroundJob,
      hw, hst, addJobEntry]
    rw [hsplit, hre]
  refine ⟨?_, ⟨front, rest, hsplit, hjobs⟩, ?_⟩
  · have hl : ¬ args_len > 2 := by omega
    simp [ForegroundCommand.execute, hl, hsel2]
  · rw [hjobs, hsplit]
    simp

theorem fg_keeps_identity_witness :
    (ForegroundCommand.execute 2 (some 2) true sawStop 9 sampleShell).shell.jobs.map
        (fun j => (j.jobId, j.pid))
      = sampleShell.jobs.map (fun j => (j.jobId, j.pid)) :=
  (fg_keeps_identity 2 (some 2) sawStop 9 sampleShell ⟨"b", 102, 2, true, 0⟩
    (by decide) (by decide) (by decide) (Or.inl (by decide)) (by decide) rfl).2.2
theorem getJobById_some (jobs : List JobEntry) (jobId : Int) (job : JobEntry)
    (h : getJobById jobs jobId = some job) : job ∈ jobs ∧ job.jobId = jobId := by
  induction jobs with
  | nil => simp [getJobById] at h
  | cons j js ih =>
    unfold getJobById at h
    split_ifs at h with hj
    · simp only [Option.some.injEq] at h
      subst h
      exact ⟨List.mem_cons_self _ _, hj⟩
    · exact ⟨List.mem_cons_of_mem _ (ih h).1, (ih h).2⟩

theorem getJobById_none (jobs : List JobEntry) (jobId : Int)
    (h : ∀ j ∈ jobs, j.jobId ≠ jobId) : getJobById jobs jobId = none := by
  induction jobs with
  | nil => rfl
  | cons j js ih =>
    have hj := h j (List.mem_cons_self _ _)
    simp [getJobById, hj, ih (fun k hk => h k (List.mem_cons_of_mem _ hk))]

theorem getLastStoppedJob_some (jobs : List JobEntry) (job : JobEntry) (jobId : Int)
    (h : getLastStoppedJob jobs = (some job, jobId)) :
    job ∈ jobs ∧ job.isStopped = true ∧ jobId = job.jobId
    ∧ (IdsIncreasing jobs → ∀ k ∈ jobs, k.isStopped = true → k.jobId ≤ job.jobId) := by
  unfold getLastStoppedJob at h
  split_ifs at h with he
  · simp at h
  · rcases lastStoppedScan_spec jobs.reverse with ⟨h1, _⟩ | ⟨front, j, rest, e, h1, h2, h3⟩
    · rw [h1] at h
      simp at h
    · rw [h3] at h
      simp only [Prod.mk.injEq, Option.some.injEq] at h
      obtain ⟨rfl, rfl⟩ := h
      have ej : jobs = rest.reverse ++ j :: front.reverse := by
        have := congrArg List.reverse e
        simpa using this
      refine ⟨by rw [ej]; simp, h2, rfl, ?_⟩
      intro hs k hk hst
      unfold IdsIncreasing at hs
      rw [ej, List.map_append, List.pairwise_append] at hs
      rw [ej] at hk
      rcases List.mem_append.mp hk with hk | hk
      · exact le_of_lt (hs.2.2 _ (List.mem_map_of_mem _ hk) _
          (List.mem_map_of_mem _ (List.mem_cons_self _ _)))
      · rcases List.mem_cons.mp hk with rfl | hk
        · exact le_refl _
        · have := h1 k (List.mem_reverse.mp hk)
          rw [this] at hst
          cases hst

theorem getLastStoppedJob_none (jobs : List JobEntry)
    (h : ∀ j ∈ jobs, j.isStopped = false) : getLastStoppedJob jobs = (none, -1) := by
  unfold getLastStoppedJob
  split_ifs
  · rfl
  · rcases lastStoppedScan_spec jobs.reverse with ⟨h1, _⟩ | ⟨front, j, rest, e, _, h2, _⟩
    · exact h1
    · have hj : j ∈ jobs := by
        have : j ∈ jobs.reverse := by rw [e]; simp
        exact List.mem_reverse.mp this
      rw [h j hj] at h2
      cases h2

theorem getLastStoppedJob_exists (jobs : List JobEntry) (k : JobEntry)
    (hk : k ∈ jobs) (hst : k.isStopped = true) :
    ∃ job, getLastStoppedJob jobs = (some job, job.jobId) := by
  have hne : jobs.isEmpty = false := by
    cases jobs with
    | nil => cases hk
    | cons a as => rfl
  unfold getLastStoppedJob
  rw [hne]
  simp only [Bool.false_eq_true, if_false]
  rcases lastStoppedScan_spec jobs.reverse with ⟨_, h2⟩ | ⟨front, j, rest, _, _, _, h3⟩
  · have := h2 k (List.mem_reverse.mpr hk)
    rw [this] at hst
    cases hst
  · exact ⟨j, h3⟩

/-- What `bgSelect` answers with a job: a stopped job of the table, under its own
id; the job of the given id, or, without an argument, the last stopped job. -/
theorem bgSelect_ok (args1 : Option Int) (jobs : List JobEntry) (job : JobEntry) (jobId : Int)
    (h : bgSelect args1 jobs = .ok (job, jobId)) :
    job ∈ jobs ∧ job.isStopped = true ∧ jobId = job.jobId
    ∧ (∀ id, args1 = some id → job.jobId = id)
    ∧ (args1 = none → getLastStoppedJob jobs = (some job, jobId)) := by
  cases args1 with
  | none =>
    simp only [bgSelect] at h
    cases hg : getLastStoppedJob jobs with
    | mk found fid =>
      rw [hg] at h
      cases found with
      | none => simp at h
      | some j =>
        simp only [] at h
        split_ifs at h with h1
        simp only [Except.ok.injEq, Prod.mk.injEq] at h
        obtain ⟨rfl, rfl⟩ := h
        obtain ⟨a, b, c, _⟩ := getLastStoppedJob_some jobs j fid hg
        exact ⟨a, b, c, (fun id hid => by cases hid), (fun _ => rfl)⟩
  | some id =>
    simp only [bgSelect] at h
    split_ifs at h with h0
    cases hg : getJobById jobs id with
    | none => rw [hg] at h; simp at h
    | some j =>
      rw [hg] at h
      simp only [checkIfStopped, hg] at h
      obtain ⟨hmem, hid⟩ := getJobById_some jobs id j hg
      cases hst : j.isStopped with
      | false => rw [hst] at h; simp at h
      | true =>
        rw [hst] at h
        simp only [Except.ok.injEq, Prod.mk.injEq] at h
        obtain ⟨rfl, rfl⟩ := h
        exact ⟨hmem, hst, hid.symm, (fun id2 hid2 => by
          simp only [Option.some.injEq] at hid2; rw [← hid2]; exact hid), (fun hn => by cases hn)⟩

theorem bgSelect_error (args1 : Option Int) (jobs : List JobEntry) (report : BgReport)
    (h : bgSelect args1 jobs = .error report) : report ≠ BgReport.resumed := by
  intro hr
  subst hr
  cases args1 with
  | none =>
    simp only [bgSelect] at h
    cases hg : getLastStoppedJob jobs with
    | mk found fid =>
      rw [hg] at h
      cases found with
      | none => simp at h
      | some j =>
        simp only [] at h
        split_ifs at h
        simp at h
  | some id =>
    simp only [bgSelect] at h
    split_ifs at h with h0
    · simp at h
    · cases hg : getJobById jobs id with
      | none => rw [hg] at h; simp at h
      | some j =>
        rw [hg] at h
        simp only [checkIfStopped, hg] at h
        cases hst : j.isStopped
        · rw [hst] at h; simp at h
        · rw [hst] at h; simp at h

theorem setStopMark_split (mark : Bool) (front rest : List JobEntry) (job : JobEntry)
    (hn : ((front ++ job :: rest).map JobEntry.jobId).Nodup) :
    setStopMark mark (front ++ job :: rest) job.jobId
      = front ++ { job with isStopped := mark } :: rest := by
  have hget : (front ++ job :: rest).get? front.length = some job := by
    rw [List.get?_eq_getElem?, List.getElem?_append_right (le_refl _)]
    simp
  rw [setStopMark_at mark _ front.length job hget hn]
  simp
/-- C19 (as amended). On a table with strictly increasing ids: when `bg` resumes
a job (it was given the id of a stopped job, or no argument while some job is
stopped, and the continue signal succeeded), the job is a stopped job of the
table, the one with the given id or, without an argument, the stopped job with
the greatest id; the continue signal went to its pid only; and the shell is
unchanged but for that entry, which is now Running. With at most one argument
and a continue signal that succeeds, `bg` does resume when given the id (not 0)
of a stopped job, or no argument while the stopped job with the greatest id has
an id other than -1. When the id is absent, the job of that id is already
Running, or no job is stopped, `bg` sends no signal and leaves the shell as it
was. -/
theorem bg_spec (args_len : Nat) (args1 : Option Int) (killOk : Bool) (s : SmallShell)
    (hs : IdsIncreasing s.jobs) :
    ((BackgroundCommand.execute args_len args1 killOk s).report = BgReport.resumed →
      ∃ front job rest, s.jobs = front ++ job :: rest ∧ job.isStopped = true
        ∧ (BackgroundCommand.execute args_len args1 killOk s).continued = [job.pid]
        ∧ (BackgroundCommand.execute args_len args1 killOk s).shell
            = { s with jobs := front ++ { job with isStopped := false } :: rest }
        ∧ (∀ id, args1 = some id → job.jobId = id)
        ∧ (args1 = none → ∀ k ∈ s.jobs, k.isStopped = true → k.jobId ≤ job.jobId))
    ∧ (args_len ≤ 2 → killOk = true → ∀ job ∈ s.jobs, job.isStopped = true →
        ((args1 = some job.jobId ∧ job.jobId ≠ 0)
          ∨ (args1 = none ∧ job.jobId ≠ -1
              ∧ ∀ k ∈ s.jobs, k.isStopped = true → k.jobId ≤ job.jobId)) →
        (BackgroundCommand.execute args_len args1 killOk s).report = BgReport.resumed)
    ∧ (∀ id, args1 = some id → (∀ j ∈ s.jobs, j.jobId ≠ id) →
        (BackgroundCommand.execute args_len args1 killOk s).continued = []
        ∧ (BackgroundCommand.execute args_len args1 killOk s).shell = s)
    ∧ (∀ id, args1 = some id → ∀ j ∈ s.jobs, j.jobId = id → j.isStopped = false →
        (BackgroundCommand.execute args_len args1 killOk s).continued = []
        ∧ (BackgroundCommand.execute args_len args1 killOk s).shell = s)
    ∧ (args1 = none → (∀ j ∈ s.jobs, j.isStopped = false) →
        (BackgroundCommand.execute args_len args1 killOk s).continued = []
        ∧ (BackgroundCommand.execute args_len args1 killOk s).shell = s) := by
  have hn := nodup_of_increasing s.jobs hs
  have herr : ∀ report, bgSelect args1 s.jobs = .error report →
      (BackgroundCommand.execute args_len args1 killOk s).continued = []
      ∧ (BackgroundCommand.execute args_len args1 killOk s).shell = s := by
    intro report hsel
    by_cases hlen : args_len > 2
    · simp only [BackgroundCommand.execute, hlen, if_true, and_self]
    · simp only [BackgroundCommand.execute, hlen, if_false, hsel, and_self]
  refine ⟨?_, ?_, ?_, ?_, ?_⟩
  · intro hr
    by_cases hlen : args_len > 2
    · simp [BackgroundCommand.execute, hlen] at hr
    · cases hsel : bgSelect args1 s.jobs with
      | error report =>
        simp only [BackgroundCommand.execute, hlen, if_false, hsel] at hr
        exact absurd hr (bgSelect_error args1 s.jobs report hsel)
      | ok found =>
        obtain ⟨job, jobId⟩ := found
        obtain ⟨hmem, hst, hid, harg, hlast⟩ := bgSelect_ok args1 s.jobs job jobId hsel
        subst hid
        cases killOk with
        | false => simp [BackgroundCommand.execute, hlen, hsel] at hr
        | true =>
          obtain ⟨front, rest, hsplit⟩ := List.append_of_mem hmem
          obtain ⟨j, hj⟩ := getJobById_isSome_of_mem s.jobs job hmem
          have hmark : (removeStopMark s.jobs job.jobId).2
              = front ++ { job with isStopped := false } :: rest := by
            simp only [removeStopMark, hj]
            rw [hsplit, setStopMark_split false front rest job (hsplit ▸ hn)]
          refine ⟨front, job, rest, hsplit, hst, ?_, ?_, harg, ?_⟩
          · simp only [BackgroundCommand.execute, hlen, if_false, hsel, if_true]
          · simp only [BackgroundCommand.execute, hlen, if_false, hsel, if_true, hmark]
          · intro hnone
            exact (getLastStoppedJob_some s.jobs job job.jobId (hlast hnone)).2.2.2 hs
  · intro hlen hk job hmem hst hsel
    subst hk
    have hl : ¬ args_len > 2 := by omega
    have hok : ∃ j, bgSelect args1 s.jobs = .ok (j, j.jobId) := by
      rcases hsel with ⟨h1, h2⟩ | ⟨h1, h2, h3⟩
      · refine ⟨job, ?_⟩
        simp [bgSelect, h1, h2, checkIfStopped, getJobById_of_mem s.jobs job hn hmem, hst]
      · obtain ⟨j, hj⟩ := getLastStoppedJob_exists s.jobs job hmem hst
        obtain ⟨a, b, _, d⟩ := getLastStoppedJob_some s.jobs j j.jobId hj
        have hle1 := h3 j a b
        have hle2 := d hs job hmem hst
        have hne : j.jobId ≠ -1 := by omega
        exact ⟨j, by simp [bgSelect, h1, hj, hne]⟩
    obtain ⟨j, hj⟩ := hok
    simp only [BackgroundCommand.execute, hl, if_false, hj, if_true]
  · intro id harg habs
    refine herr (if id = 0 then BgReport.invalidArguments else BgReport.jobDoesNotExist id) ?_
    subst harg
    simp only [bgSelect, getJobById_none s.jobs id habs]
    split_ifs <;> rfl
  · intro id harg j hmem hid hst
    refine herr (if id = 0 then BgReport.invalidArguments else BgReport.alreadyRunning id) ?_
    subst harg
    subst hid
    simp only [bgSelect, checkIfStopped, getJobById_of_mem s.jobs j hn hmem, hst]
    split_ifs <;> rfl
  · intro harg hall
    refine herr BgReport.noStoppedJobs ?_
    subst harg
    simp [bgSelect, getLastStoppedJob_none s.jobs hall]

theorem bg_spec_witness :
    ∃ front job rest, sampleShell.jobs = front ++ job :: rest ∧ job.isStopped = true
      ∧ (BackgroundCommand.execute 1 none true sampleShell).continued = [job.pid]
      ∧ (BackgroundCommand.execute 1 none true sampleShell).shell
          = { sampleShell with jobs := front ++ { job with isStopped := false } :: rest }
      ∧ (∀ id, (none : Option Int) = some id → job.jobId = id)
      ∧ ((none : Option Int) = none →
          ∀ k ∈ sampleShell.jobs, k.isStopped = true → k.jobId ≤ job.jobId) :=
  (bg_spec 1 none true sampleShell (by decide)).1 (by decide)

theorem sampleShell_reached : ReachedByLaunches sampleShell := by
  have h := ReachedByLaunches.launch _ (fun _ => noChange) 0 "c" 103 false
    (ReachedByLaunches.launch _ (fun _ => noChange) 0 "b" 102 true
      (ReachedByLaunches.launch _ (fun _ => noChange) 0 "a" 101 false ReachedByLaunches.init))
  have e : addJob (fun _ => noChange) 0
      (addJob (fun _ => noChange) 0
        (addJob (fun _ => noChange) 0
          { jobs := [], timeouts := [], alarm := none, fg_pid := -1, second_fg_pid := -1 }
          "a" 101 false) "b" 102 true) "c" 103 false = sampleShell := by
    decide
  rw [e] at h
  exact h

theorem zeroIdShell_reached : ReachedByLaunches zeroIdShell := by
  have h := ReachedByLaunches.reap _ (exitOf 10)
    (launchedShell_reached 4294967294 20 true (by decide))
  have e : removeFinishedJobs (exitOf 10) (launchedShell 4294967294 20 true) = zeroIdShell := by
    decide
  rw [e] at h
  exact h

theorem minusOneIdShell_reached : ReachedByLaunches minusOneIdShell := by
  have h := ReachedByLaunches.reap _ (exitOf 10)
    (launchedShell_reached 4294967293 20 true (by decide))
  have e : removeFinishedJobs (exitOf 10) (launchedShell 4294967293 20 true)
      = minusOneIdShell := by
    decide
  rw [e] at h
  exact h

/-- C19, as stated, fails on tables that launches and reaps alone lead to once
the ids have wrapped around. On a table with a repeated job id, `bg` without an
argument picks the stopped entry of pid 20 and sends it the continue signal,
but the stop mark it clears is looked up by id and belongs to the entry of pid
10, so the table is unchanged and the resumed job is still marked Stopped.
Given the id 0 of a stopped job, `bg` reports invalid arguments (0 is the
value of a failed `atoi`) and sends no signal; without an argument, when the
stopped job has the id -1, `bg` reports that no job is stopped (-1 is the
value of "none") and sends no signal. And with a second argument after the id
of a stopped job, `bg` reports invalid arguments and sends no signal. -/
theorem bg_duplicate_ids :
    (ReachedByLaunches duplicateIdStopped
      ∧ (BackgroundCommand.execute 1 none true duplicateIdStopped).report = BgReport.resumed
      ∧ (BackgroundCommand.execute 1 none true duplicateIdStopped).continued = [20]
      ∧ (BackgroundCommand.execute 1 none true duplicateIdStopped).shell.jobs
          = [⟨"a", 10, 1, false, 0⟩, ⟨"b", 20, 1, true, 0⟩])
    ∧ (ReachedByLaunches zeroIdShell ∧ IdsIncreasing zeroIdShell.jobs
      ∧ BackgroundCommand.execute 2 (some 0) true zeroIdShell
          = { shell := zeroIdShell, report := BgReport.invalidArguments, continued := [] })
    ∧ (ReachedByLaunches minusOneIdShell ∧ IdsIncreasing minusOneIdShell.jobs
      ∧ BackgroundCommand.execute 1 none true minusOneIdShell
          = { shell := minusOneIdShell, report := BgReport.noStoppedJobs, continued := [] })
    ∧ (ReachedByLaunches sampleShell ∧ IdsIncreasing sampleShell.jobs
      ∧ (⟨"b", 102, 2, true, 0⟩ : JobEntry) ∈ sampleShell.jobs
      ∧ BackgroundCommand.execute 3 (some 2) true sampleShell
          = { shell := sampleShell, report := BgReport.invalidArguments, continued := [] }) := by
  have e : duplicateIdStopped = launchedShell 4294967295 20 true := by decide
  refine ⟨⟨?_, by decide, by decide, by decide⟩,
    ⟨zeroIdShell_reached, by decide, by decide⟩,
    ⟨minusOneIdShell_reached, by decide, by decide⟩,
    ⟨sampleShell_reached, by decide, by decide, by decide⟩⟩
  rw [e]
  exact launchedShell_reached 4294967295 20 true (by decide)

/-! ## `kill`: the claims -/

/-- Whatever the arguments, `kill` leaves the job table as it was, and it makes
no `kill` call unless there are exactly three argument words and both regular
expressions match. -/
theorem KillCommand_frame (args : List (List Char)) (killOk : Int → Int → Bool)
    (jobs : List JobEntry) :
    (KillCommand.execute args killOk jobs).jobs = jobs
    ∧ ((∀ arg0 arg1 arg2, args = [arg0, arg1, arg2] →
          matchSignal arg1 = false ∨ matchJobId arg2 = false) →
        (KillCommand.execute args killOk jobs).report = KillReport.invalidArguments
        ∧ (KillCommand.execute args killOk jobs).sent = []) := by
  unfold KillCommand.execute
  split
  · rename_i arg0 arg1 arg2
    constructor
    · split_ifs
      · rfl
      · split
        · rfl
        · split
          · rfl
          · split
            · rfl
            · split_ifs <;> rfl
    · intro h
      have h2 := h arg0 arg1 arg2 rfl
      have hc : (!matchSignal arg1 || !matchJobId arg2) = true := by
        rcases h2 with h2 | h2 <;> simp [h2]
      simp only [hc, if_true, and_self]
  · exact ⟨rfl, fun _ => ⟨rfl, rfl⟩⟩

/-- Once both arguments pass the regular expressions and `std::stoi` converts
them: an id that is not in the table gives the report "job-id does not exist"
and no `kill` call; an id of the table gives exactly one `kill` call, to the pid
of the first entry with the id, with the absolute value of the signal argument. -/
theorem KillCommand_converted (arg0 arg1 arg2 : List Char) (killOk : Int → Int → Bool)
    (jobs : List JobEntry) (sigNum jobId : Int)
    (h1 : matchSignal arg1 = true) (h2 : matchJobId arg2 = true)
    (hsig : stoi arg1 = .ok sigNum) (hid : stoi arg2 = .ok jobId) :
    ((∀ j ∈ jobs, j.jobId ≠ jobId) →
        KillCommand.execute [arg0, arg1, arg2] killOk jobs
          = { report := KillReport.jobDoesNotExist jobId, sent := [], jobs := jobs })
    ∧ (∀ job, getJobById jobs jobId = some job →
        (KillCommand.execute [arg0, arg1, arg2] killOk jobs).sent = [(job.pid, |sigNum|)]) := by
  constructor
  · intro habs
    simp [KillCommand.execute, h1, h2, hsig, hid, getJobById_none jobs jobId habs]
  · intro job hjob
    simp only [KillCommand.execute, h1, h2, hsig, hid, hjob, Bool.not_true, Bool.or_self,
      Bool.false_eq_true, if_false]
    split_ifs <;> rfl

/-- C14, at the failing inputs: the first argument `19` has no sign, yet `kill`
does not report invalid arguments and sends signal 19 to the pid of job 1; the
first argument `a9` has no sign either and passes the check as well, after
which `std::stoi` throws. -/
theorem kill_accepts_unsigned_signal :
    KillCommand.execute ["kill".toList, "19".toList, "1".toList] (fun _ _ => true) sampleJobs
      = { report := KillReport.signalSent 19 101, sent := [(101, 19)], jobs := sampleJobs }
    ∧ (KillCommand.execute ["kill".toList, "a9".toList, "1".toList] (fun _ _ => true)
        sampleJobs).report = KillReport.threw StoiError.invalid_argument := by
  decide

/-- C15, at the failing input: `kill -9 99999999999` is well formed and its id
matches no entry of the table, yet the report is not "job-id does not exist":
`std::stoi` throws `out_of_range` and the exception leaves `execute`. -/
theorem kill_huge_id_throws :
    matchSignal "-9".toList = true ∧ matchJobId "99999999999".toList = true
    ∧ (∀ j ∈ sampleJobs, j.jobId ≠ 99999999999)
    ∧ KillCommand.execute ["kill".toList, "-9".toList, "99999999999".toList]
        (fun _ _ => true) sampleJobs
      = { report := KillReport.threw StoiError.out_of_range, sent := [], jobs := sampleJobs } := by
  decide
/-! ## Strings -/

theorem firstIndex_none_iff (p : Char → Bool) (s : List Char) :
    firstIndex p s = none ↔ ∀ c ∈ s, p c = false := by
  induction s with
  | nil => simp [firstIndex]
  | cons x xs ih =>
    unfold firstIndex
    by_cases hx : p x = true
    · simp [hx]
    · have hx2 : p x = false := by simpa using hx
      simp [hx2, ih]

theorem find_first_of_ne_none_iff (s : List Char) (c : Char) :
    find_first_of s c ≠ none ↔ c ∈ s := by
  unfold find_first_of
  rw [Ne, firstIndex_none_iff]
  constructor
  · intro h
    by_contra hc
    apply h
    intro x hx
    have : x ≠ c := fun e => hc (e ▸ hx)
    simpa using this
  · intro hc h
    have := h c hc
    simp at this

theorem firstIndex_append (p : Char → Bool) (pre post : List Char) (x : Char)
    (hpre : ∀ c ∈ pre, p c = false) (hx : p x = true) :
    firstIndex p (pre ++ x :: post) = some pre.length := by
  induction pre with
  | nil => simp [firstIndex, hx]
  | cons a as ih =>
    have ha := hpre a (List.mem_cons_self _ _)
    simp [firstIndex, ha, ih (fun c hc => hpre c (List.mem_cons_of_mem _ hc))]

theorem lastIndex_append (p : Char → Bool) (pre post : List Char) (x : Char)
    (hpost : ∀ c ∈ post, p c = false) (hx : p x = true) :
    lastIndex p (pre ++ x :: post) = some pre.length := by
  have hnone : ∀ l : List Char, (∀ c ∈ l, p c = false) → lastIndex p l = none := by
    intro l
    induction l with
    | nil => intro _; rfl
    | cons a as ih =>
      intro h
      have ha := h a (List.mem_cons_self _ _)
      simp [lastIndex, ih (fun c hc => h c (List.mem_cons_of_mem _ hc)), ha]
  induction pre with
  | nil => simp [lastIndex, hnone post hpost, hx]
  | cons a as ih => simp [lastIndex, ih]

theorem exists_first_split (s : List Char) (c : Char) (h : c ∈ s) :
    ∃ pre post, s = pre ++ c :: post ∧ c ∉ pre := by
  induction s with
  | nil => cases h
  | cons x xs ih =>
    by_cases hx : x = c
    · exact ⟨[], xs, by simp [hx], by simp⟩
    · have hxs : c ∈ xs := by
        rcases List.mem_cons.mp h with e | e
        · exact absurd e.symm hx
        · exact e
      obtain ⟨pre, post, e, hn⟩ := ih hxs
      refine ⟨x :: pre, post, by simp [e], ?_⟩
      intro hm
      rcases List.mem_cons.mp hm with e2 | e2
      · exact hx e2.symm
      · exact hn e2

theorem exists_last_split (s : List Char) (c : Char) (h : c ∈ s) :
    ∃ pre post, s = pre ++ c :: post ∧ c ∉ post := by
  obtain ⟨pre, post, e, hn⟩ := exists_first_split s.reverse c (List.mem_reverse.mpr h)
  refine ⟨post.reverse, pre.reverse, ?_, by simpa using hn⟩
  have := congrArg List.reverse e
  simpa using this

theorem find_first_of_split (pre post : List Char) (c : Char) (h : c ∉ pre) :
    find_first_of (pre ++ c :: post) c = some pre.length :=
  firstIndex_append _ pre post c
    (fun x hx => by
      have : x ≠ c := fun e => h (e ▸ hx)
      simpa using this)
    (by simp)

theorem find_last_of_split (pre post : List Char) (c : Char) (h : c ∉ post) :
    find_last_of (pre ++ c :: post) c = some pre.length :=
  lastIndex_append _ pre post c
    (fun x hx => by
      have : x ≠ c := fun e => h (e ▸ hx)
      simpa using this)
    (by simp)

/-! ## `CreateCommand`: the claims -/

theorem builtinOrExternal_table (rest : List (List Char)) :
    ∀ p ∈ builtinKeywords, (p.1 = "ls".toList → rest = []) →
      builtinOrExternal p.1 rest = p.2 := by
  simp only [builtinKeywords, List.forall_mem_cons]
  refine ⟨?_, ?_, ?_, ?_, ?_, ?_, ?_, ?_, ?_, ?_, ?_, by simp⟩
  · intro _; rfl
  · intro h; simp [builtinOrExternal, h trivial]
  all_goals
    intro _
    simp [builtinOrExternal]

theorem builtinOrExternal_keyword (arg0 : List Char) (rest : List (List Char))
    (kind : CommandKind) (hk : (arg0, kind) ∈ builtinKeywords)
    (hls : arg0 = "ls".toList → rest = []) : builtinOrExternal arg0 rest = kind :=
  builtinOrExternal_table rest (arg0, kind) hk hls

theorem builtinOrExternal_other (arg0 : List Char) (rest : List (List Char))
    (h : ∀ kw kind, (kw, kind) ∈ builtinKeywords → arg0 ≠ kw) :
    builtinOrExternal arg0 rest = CommandKind.ExternalCommand := by
  have h1 := h "chprompt".toList CommandKind.ChangePromptCommand (by simp [builtinKeywords])
  have h2 := h "ls".toList CommandKind.LsDirectoryCommand (by simp [builtinKeywords])
  have h3 := h "showpid".toList CommandKind.ShowPidCommand (by simp [builtinKeywords])
  have h4 := h "pwd".toList CommandKind.GetCurrDirCommand (by simp [builtinKeywords])
  have h5 := h "cp".toList CommandKind.CopyCommand (by simp [builtinKeywords])
  have h6 := h "cd".toList CommandKind.ChangeDirCommand (by simp [builtinKeywords])
  have h7 := h "kill".toList CommandKind.KillCommand (by simp [builtinKeywords])
  have h8 := h "jobs".toList CommandKind.JobsCommand (by simp [builtinKeywords])
  have h9 := h "fg".toList CommandKind.ForegroundCommand (by simp [builtinKeywords])
  have h10 := h "bg".toList CommandKind.BackgroundCommand (by simp [builtinKeywords])
  have h11 := h "quit".toList CommandKind.QuitCommand (by simp [builtinKeywords])
  unfold builtinOrExternal
  rw [if_neg h1, if_neg (fun hc => h2 hc.1), if_neg h3, if_neg h4, if_neg h5, if_neg h6,
    if_neg h7, if_neg h8, if_neg h9, if_neg h10, if_neg h11]
/-- C13 (as amended). `CreateCommand` on a command line, with the argument words
taken after the removal of a trailing background sign: a line of whitespace only
yields no command, and so does a line without argument words (a lone `&`);
otherwise a command is built, of class Timeout when the first word is
`timeout`, whatever else the line holds; else Redirection when the line holds a
`>`; else Pipe when it holds a `|`; else the builtin that the first word names,
where `ls` names its builtin only when it is the only word and yields an
External command otherwise; and External when the first word is no builtin
keyword. -/
theorem CreateCommand_dispatch (cmd_line : List Char) :
    ((∀ c ∈ cmd_line, isWhitespace c = true) → CreateCommand cmd_line = none)
    ∧ (_parseCommandLine (_removeBackgroundSign cmd_line) = [] → CreateCommand cmd_line = none)
    ∧ (∀ arg0 rest, (∃ c ∈ cmd_line, isWhitespace c = false) →
        _parseCommandLine (_removeBackgroundSign cmd_line) = arg0 :: rest →
        ∃ command, CreateCommand cmd_line = some command
          ∧ (arg0 = "timeout".toList → command.kind = CommandKind.TimeoutCommand)
          ∧ (arg0 ≠ "timeout".toList → '>' ∈ cmd_line →
              command.kind = CommandKind.RedirectionCommand)
          ∧ (arg0 ≠ "timeout".toList → '>' ∉ cmd_line → '|' ∈ cmd_line →
              command.kind = CommandKind.PipeCommand)
          ∧ (arg0 ≠ "timeout".toList → '>' ∉ cmd_line → '|' ∉ cmd_line →
              (∀ kind, (arg0, kind) ∈ builtinKeywords → (arg0 = "ls".toList → rest = []) →
                command.kind = kind)
              ∧ (arg0 = "ls".toList → rest ≠ [] → command.kind = CommandKind.ExternalCommand)
              ∧ ((∀ kw kind, (kw, kind) ∈ builtinKeywords → arg0 ≠ kw) →
                command.kind = CommandKind.ExternalCommand))) := by
  refine ⟨?_, ?_, ?_⟩
  · intro h
    have hb : find_first_not_of cmd_line = none := by
      unfold find_first_not_of
      rw [firstIndex_none_iff]
      intro c hc
      simp [h c hc]
    simp [CreateCommand, hb]
  · intro h
    simp only [CreateCommand, h]
    split_ifs <;> rfl
  · rintro arg0 rest ⟨c, hc, hcw⟩ hargs
    have hb : find_first_not_of cmd_line ≠ none := by
      unfold find_first_not_of
      rw [Ne, firstIndex_none_iff]
      intro h
      have := h c hc
      simp [hcw] at this
    have hgt : ∀ x : Char, (find_first_of cmd_line x ≠ none) = (x ∈ cmd_line) := fun x =>
      propext (find_first_of_ne_none_iff cmd_line x)
    simp only [CreateCommand, hb, if_false, hargs]
    refine ⟨_, rfl, ?_, ?_, ?_, ?_⟩
    · intro h0
      simp only [h0, if_true]
    · intro h0 h1
      simp only [h0, if_false, hgt, h1, if_true]
    · intro h0 h1 h2
      simp only [h0, if_false, hgt, h1, h2, if_true]
    · intro h0 h1 h2
      simp only [h0, if_false, hgt, h1, h2]
      refine ⟨?_, ?_, ?_⟩
      · intro kind hk hls
        exact builtinOrExternal_keyword arg0 rest kind hk hls
      · intro hls hrest
        subst hls
        simp [builtinOrExternal, hrest]
      · intro hno
        exact builtinOrExternal_other arg0 rest hno

theorem CreateCommand_dispatch_witness :
    ∃ command, CreateCommand "jobs > out.txt | wc".toList = some command
      ∧ command.kind = CommandKind.RedirectionCommand := by
  obtain ⟨command, h1, _, h2, _⟩ :=
    (CreateCommand_dispatch "jobs > out.txt | wc".toList).2.2 "jobs".toList
      [">".toList, "out.txt".toList, "|".toList, "wc".toList]
      ⟨'j', by decide, by decide⟩ (by decide)
  exact ⟨command, h1, h2 (by decide) (by decide)⟩
/-- C13, as stated, fails on two lines: `ls -l` starts with the builtin keyword
`ls` and holds neither `>` nor `|`, yet the command built is External; and the
line `&` is not blank, yet no command is built. -/
theorem CreateCommand_ls_with_arguments :
    _parseCommandLine (_removeBackgroundSign "ls -l".toList) = ["ls".toList, "-l".toList]
    ∧ (CreateCommand "ls -l".toList).map (fun c => c.kind) = some CommandKind.ExternalCommand
    ∧ (∃ c ∈ "&".toList, isWhitespace c = false)
    ∧ CreateCommand "&".toList = none := by
  decide

/-! ## Redirection: the claims -/

/-- C20. For a command text that holds a `>`: the inner command is the text
before the first `>` and the destination is the trimmed text after the last
`>`, the file being opened for appending exactly when the first and the last
`>` are not the same character; so a text `cmd>file` (no other `>`) selects
overwriting and a text `cmd>>file` appending; and when the trimmed destination
is empty `execute` makes no step at all. -/
theorem redirection_parse (exec : List Char) (h : '>' ∈ exec) :
    (∃ pre post, exec = pre ++ '>' :: post ∧ '>' ∉ pre
        ∧ (RedirectionCommand.parse exec).cmd_1 = pre)
    ∧ (∃ pre post, exec = pre ++ '>' :: post ∧ '>' ∉ post
        ∧ (RedirectionCommand.parse exec).cmd_2 = _trim post)
    ∧ (∀ cmd file, '>' ∉ cmd → '>' ∉ file → exec = cmd ++ '>' :: file →
        RedirectionCommand.parse exec = { cmd_1 := cmd, cmd_2 := _trim file, append := false })
    ∧ (∀ cmd file, '>' ∉ cmd → '>' ∉ file → exec = cmd ++ '>' :: '>' :: file →
        RedirectionCommand.parse exec = { cmd_1 := cmd, cmd_2 := _trim file, append := true })
    ∧ (∀ fs bg, (RedirectionCommand.parse exec).cmd_2 = [] →
        RedirectionCommand.execute fs exec bg = []) := by
  refine ⟨?_, ?_, ?_, ?_, ?_⟩
  · obtain ⟨pre, post, e, hn⟩ := exists_first_split exec '>' h
    refine ⟨pre, post, e, hn, ?_⟩
    subst e
    simp [RedirectionCommand.parse, find_first_of_split pre post '>' hn]
  · obtain ⟨pre, post, e, hn⟩ := exists_last_split exec '>' h
    refine ⟨pre, post, e, hn, ?_⟩
    subst e
    simp [RedirectionCommand.parse, find_last_of_split pre post '>' hn]
  · intro cmd file hc hf e
    subst e
    simp [RedirectionCommand.parse, find_first_of_split cmd file '>' hc,
      find_last_of_split cmd file '>' hf]
  · intro cmd file hc hf e
    subst e
    have hl : find_last_of (cmd ++ '>' :: '>' :: file) '>' = some (cmd.length + 1) := by
      have := find_last_of_split (cmd ++ ['>']) file '>' hf
      simpa using this
    have hd : List.drop (cmd.length + 1 + 1) (cmd ++ '>' :: '>' :: file) = file := by
      have e : cmd ++ '>' :: '>' :: file = (cmd ++ ['>', '>']) ++ file := by simp
      rw [e]
      exact List.drop_left' (by simp)
    simp [RedirectionCommand.parse, find_first_of_split cmd ('>' :: file) '>' hc, hl, hd]
  · intro fs bg hempty
    simp [RedirectionCommand.execute, hempty]

theorem redirection_parse_witness :
    RedirectionCommand.parse "echo hi >> out/sub/file.txt ".toList
      = { cmd_1 := "echo hi ".toList, cmd_2 := "out/sub/file.txt".toList, append := true } :=
  ((redirection_parse "echo hi >> out/sub/file.txt ".toList (by decide)).2.2.2.1
    "echo hi ".toList " out/sub/file.txt ".toList (by decide) (by decide) (by decide)).trans
    (by decide)

/-! ## The directories of a redirection target -/

theorem lastIndex_append_some (p : Char → Bool) (pre post : List Char) (i : Nat)
    (h : lastIndex p post = some i) : lastIndex p (pre ++ post) = some (pre.length + i) := by
  induction pre with
  | nil => simpa using h
  | cons a as ih =>
    show (match lastIndex p (as ++ post) with
      | some i => some (i + 1)
      | none => if p a then some 0 else none) = some ((a :: as).length + i)
    rw [ih]
    simp only [List.length_cons, Option.some.injEq]
    omega

theorem lastIndex_isSome_of_mem (p : Char → Bool) (s : List Char) (c : Char)
    (hc : c ∈ s) (hp : p c = true) : ∃ i, lastIndex p s = some i := by
  obtain ⟨pre, post, rfl⟩ := List.append_of_mem hc
  cases hl : lastIndex p post with
  | some i =>
    exact ⟨pre.length + (i + 1), lastIndex_append_some p pre (c :: post) (i + 1)
      (by simp [lastIndex, hl])⟩
  | none =>
    exact ⟨pre.length + 0, lastIndex_append_some p pre (c :: post) 0
      (by simp [lastIndex, hl, hp])⟩

theorem slash_mem_pathOf (d : List Char) (ds : List (List Char)) (file : List Char) :
    '/' ∈ pathOf (d :: ds) file := by
  simp [pathOf]

theorem length_pathOf (ds : List (List Char)) (file : List Char) :
    ds.length ≤ (pathOf ds file).length := by
  induction ds with
  | nil => simp
  | cons d ds ih =>
    simp only [pathOf, List.length_cons, List.length_append]
    omega

theorem checkDirectories_singleton (fs : FileSystem) (p : List Char) :
    checkDirectories fs [p] = checkDirectory fs p := by
  simp only [checkDirectories]
  split_ifs with h
  · rw [List.append_nil, ← h]
  · rfl

/-- The loop of `createDirectories` on the path `d1/.../dn/file`, started with
the directory text `dir_Path`, checks the directories `dir_Path ++ d1`,
`dir_Path ++ d1/d2`, ..., up to the first `mkdir` that fails. -/
theorem createDirectories_pathOf (fs : FileSystem) (file : List Char)
    (hfile : '/' ∉ file) :
    ∀ (ds : List (List Char)) (fuel : Nat) (dir_Path : List Char),
      ds ≠ [] → (∀ d ∈ ds, '/' ∉ d) → ds.length ≤ fuel →
      createDirectories fs fuel dir_Path (pathOf ds file)
        = checkDirectories fs ((directoryPrefixes ds).map (fun p => dir_Path ++ p)) := by
  intro ds
  induction ds with
  | nil => intro fuel dir_Path h; exact absurd rfl h
  | cons d ds ih =>
    intro fuel dir_Path _ hds hfuel
    have hd : '/' ∉ d := hds d (List.mem_cons_self _ _)
    cases fuel with
    | zero => simp at hfuel
    | succ fuel =>
      have hfirst : find_first_of (pathOf (d :: ds) file) '/' = some d.length :=
        find_first_of_split d (pathOf ds file) '/' hd
      cases ds with
      | nil =>
        have hlast : find_last_of (pathOf [d] file) '/' = some d.length :=
          find_last_of_split d file '/' hfile
        simp only [createDirectories, hfirst, hlast, ne_eq, not_true_eq_false, if_false]
        simp only [pathOf, List.take_left, directoryPrefixes, List.map_nil, List.map_cons]
        rw [checkDirectories_singleton]
      | cons d2 rest =>
        obtain ⟨i, hi⟩ := lastIndex_isSome_of_mem (fun x => x == '/') (pathOf (d2 :: rest) file)
          '/' (slash_mem_pathOf d2 rest file) (by simp)
        have hlast : find_last_of (pathOf (d :: d2 :: rest) file) '/'
            = some (d.length + 1 + i) := by
          have := lastIndex_append_some (fun x => x == '/') (d ++ ['/'])
            (pathOf (d2 :: rest) file) i hi
          simpa [find_last_of, pathOf] using this
        have hne : ¬ (some d.length = some (d.length + 1 + i)) := by
          simp only [Option.some.injEq]
          omega
        have htake : (pathOf (d :: d2 :: rest) file).take d.length = d := by
          simp [pathOf]
        have hdrop : (pathOf (d :: d2 :: rest) file).drop (d.length + 1)
            = pathOf (d2 :: rest) file := by
          have e : pathOf (d :: d2 :: rest) file = (d ++ ['/']) ++ pathOf (d2 :: rest) file := by
            simp [pathOf]
          rw [e]
          exact List.drop_left' (by simp)
        have hrec := ih fuel (dir_Path ++ d ++ ['/']) (by simp)
          (fun x hx => hds x (List.mem_cons_of_mem _ hx)) (by simp at hfuel ⊢; omega)
        have hmap : (directoryPrefixes (d :: d2 :: rest)).map (fun p => dir_Path ++ p)
            = (dir_Path ++ d)
              :: (directoryPrefixes (d2 :: rest)).map (fun p => dir_Path ++ d ++ ['/'] ++ p) := by
          simp [directoryPrefixes, Function.comp_def]
        rw [hmap]
        simp only [createDirectories, hfirst, hlast, ne_eq, hne, not_false_eq_true, if_true, htake,
          hdrop, hrec, checkDirectories]

theorem checkDirectories_all (fs : FileSystem) (paths : List (List Char))
    (h : ∀ p ∈ paths, fs.found p = true ∨ fs.mkdirOk p = true) :
    checkDirectories fs paths = (paths.flatMap (directorySteps fs), true) := by
  induction paths with
  | nil => rfl
  | cons p ps ih =>
    have hp := h p (List.mem_cons_self _ _)
    have hc : checkDirectory fs p = (directorySteps fs p, true) := by
      unfold checkDirectory directorySteps
      by_cases hf : fs.found p = true
      · simp [hf]
      · have hm : fs.mkdirOk p = true := by
          rcases hp with hp | hp
          · exact absurd hp hf
          · exact hp
        simp [hf, hm]
    simp [checkDirectories, hc, ih (fun q hq => h q (List.mem_cons_of_mem _ hq))]

theorem checkDirectory_paths (fs : FileSystem) (p q : List Char)
    (h : RedirectionStep.stat q ∈ (checkDirectory fs p).1
      ∨ RedirectionStep.mkdir q ∈ (checkDirectory fs p).1) : q = p := by
  unfold checkDirectory at h
  split_ifs at h <;> simp at h <;> simp [h]

theorem checkDirectories_paths (fs : FileSystem) (paths : List (List Char)) (q : List Char)
    (h : RedirectionStep.stat q ∈ (checkDirectories fs paths).1
      ∨ RedirectionStep.mkdir q ∈ (checkDirectories fs paths).1) : q ∈ paths := by
  induction paths with
  | nil => simp [checkDirectories] at h
  | cons p ps ih =>
    simp only [checkDirectories] at h
    split_ifs at h with hc
    · simp only [List.mem_append] at h
      have : (RedirectionStep.stat q ∈ (checkDirectory fs p).1
            ∨ RedirectionStep.mkdir q ∈ (checkDirectory fs p).1)
          ∨ (RedirectionStep.stat q ∈ (checkDirectories fs ps).1
            ∨ RedirectionStep.mkdir q ∈ (checkDirectories fs ps).1) := by
        rcases h with (h | h) | (h | h)
        · exact Or.inl (Or.inl h)
        · exact Or.inr (Or.inl h)
        · exact Or.inl (Or.inr h)
        · exact Or.inr (Or.inr h)
      rcases this with h1 | h2
      · rw [checkDirectory_paths fs p q h1]
        exact List.mem_cons_self _ _
      · exact List.mem_cons_of_mem _ (ih h2)
    · rw [checkDirectory_paths fs p q h]
      exact List.mem_cons_self _ _

theorem directoryPrefixes_nodup (ds : List (List Char)) : (directoryPrefixes ds).Nodup := by
  induction ds with
  | nil => simp [directoryPrefixes]
  | cons d ds ih =>
    simp only [directoryPrefixes, List.nodup_cons]
    constructor
    · intro hm
      obtain ⟨p, _, hp⟩ := List.mem_map.mp hm
      have := congrArg List.length hp
      simp at this
    · refine List.Nodup.map ?_ ih
      intro a b hab
      simpa using hab

theorem checkDirectories_steps (fs : FileSystem) (paths : List (List Char))
    (p : List Char) (a : Bool) :
    RedirectionStep.openFile p a ∉ (checkDirectories fs paths).1 := by
  induction paths with
  | nil => simp [checkDirectories]
  | cons q qs ih =>
    have hq : RedirectionStep.openFile p a ∉ (checkDirectory fs q).1 := by
      unfold checkDirectory
      split_ifs <;> simp
    simp only [checkDirectories]
    split_ifs
    · simp only [List.mem_append, not_or]
      exact ⟨hq, ih⟩
    · exact hq

theorem checkDirectories_pass (fs : FileSystem) (paths : List (List Char))
    (h : (checkDirectories fs paths).2 = true) :
    ∀ p ∈ paths, fs.found p = true ∨ fs.mkdirOk p = true := by
  induction paths with
  | nil => intro p hp; cases hp
  | cons q qs ih =>
    simp only [checkDirectories] at h
    have hq : (checkDirectory fs q).2 = true → fs.found q = true ∨ fs.mkdirOk q = true := by
      unfold checkDirectory
      by_cases hf : fs.found q = true
      · exact fun _ => Or.inl hf
      · by_cases hm : fs.mkdirOk q = true
        · exact fun _ => Or.inr hm
        · simp [hf, hm]
    by_cases hc : (checkDirectory fs q).2 = true
    · rw [if_pos hc] at h
      intro p hp
      rcases List.mem_cons.mp hp with rfl | hp
      · exact hq hc
      · exact ih h p hp
    · rw [if_neg hc] at h
      exact absurd h hc


/-! ## The directories of a redirection target: the claim -/

theorem redirection_steps (fs : FileSystem) (exec : List Char) (bg : Bool)
    (ds : List (List Char)) (file : List Char)
    (hparse : (RedirectionCommand.parse exec).cmd_2 = pathOf ds file)
    (hne : pathOf ds file ≠ [])
    (hds : ∀ d ∈ ds, '/' ∉ d) (hfile : '/' ∉ file) (hdup : fs.dupOk = true) :
    RedirectionCommand.execute fs exec bg
      = [RedirectionStep.dupStdout, RedirectionStep.closeStdout]
        ++ (checkDirectories fs (directoryPrefixes ds)).1
        ++ (if (checkDirectories fs (directoryPrefixes ds)).2 then
              if fs.openOk then
                [RedirectionStep.openFile (pathOf ds file) (RedirectionCommand.parse exec).append,
                 RedirectionStep.runCommand
                   (if bg then (RedirectionCommand.parse exec).cmd_1 ++ ['&']
                    else (RedirectionCommand.parse exec).cmd_1),
                 RedirectionStep.closeFile, RedirectionStep.restoreStdout]
              else
                [RedirectionStep.openFile (pathOf ds file) (RedirectionCommand.parse exec).append,
                 RedirectionStep.restoreStdout]
            else []) := by
  have hdirs : (if find_first_of (pathOf ds file) '/' ≠ none then
        createDirectories fs ((pathOf ds file).length + 1) [] (pathOf ds file)
      else ([], true)) = checkDirectories fs (directoryPrefixes ds) := by
    cases ds with
    | nil =>
      have hnone : ¬ (find_first_of file '/' ≠ none) := by
        rw [find_first_of_ne_none_iff]
        exact hfile
      simp only [pathOf, hnone, if_false, directoryPrefixes, checkDirectories]
    | cons d rest =>
      have hsome : find_first_of (pathOf (d :: rest) file) '/' ≠ none := by
        rw [find_first_of_ne_none_iff]
        exact slash_mem_pathOf d rest file
      rw [if_pos hsome, createDirectories_pathOf fs file hfile (d :: rest) _ [] (by simp) hds
        (Nat.le_succ_of_le (length_pathOf _ _))]
      simp
  unfold RedirectionCommand.execute
  simp only [hparse, hne, if_false, hdup, Bool.not_true, Bool.false_eq_true, hdirs]
  cases hc : (checkDirectories fs (directoryPrefixes ds)).2 <;> cases ho : fs.openOk <;> simp

/-- C21. For a destination `d1/d2/.../dn/file` whose components hold no `/`
(`n` may be 0, the components need not be non-empty; the destination itself is
not empty and `dup` succeeds): `execute` saves and closes the standard output,
then checks the directories `d1`, `d1/d2`, ..., `d1/.../dn` in this order, each
by one `stat` followed by one `mkdir` when the path is missing, up to the
first `mkdir` that fails; no other path is given to `stat` or `mkdir`; no
directory occurs twice in that list; when every directory exists or can be
created, the checks are followed by the `open` of the destination; and `open`
is called only in that case. -/
theorem redirection_directories (fs : FileSystem) (exec : List Char) (bg : Bool)
    (ds : List (List Char)) (file : List Char)
    (hparse : (RedirectionCommand.parse exec).cmd_2 = pathOf ds file)
    (hne : pathOf ds file ≠ [])
    (hds : ∀ d ∈ ds, '/' ∉ d) (hfile : '/' ∉ file) (hdup : fs.dupOk = true) :
    (∃ tail, RedirectionCommand.execute fs exec bg
        = [RedirectionStep.dupStdout, RedirectionStep.closeStdout]
          ++ (checkDirectories fs (directoryPrefixes ds)).1 ++ tail
      ∧ (∀ q, RedirectionStep.stat q ∉ tail ∧ RedirectionStep.mkdir q ∉ tail)
      ∧ ((checkDirectories fs (directoryPrefixes ds)).2 = false → tail = []))
    ∧ (∀ q, RedirectionStep.stat q ∈ RedirectionCommand.execute fs exec bg
          ∨ RedirectionStep.mkdir q ∈ RedirectionCommand.execute fs exec bg →
        q ∈ directoryPrefixes ds)
    ∧ (directoryPrefixes ds).Nodup
    ∧ ((∀ p ∈ directoryPrefixes ds, fs.found p = true ∨ fs.mkdirOk p = true) →
        ∃ tail, RedirectionCommand.execute fs exec bg
          = [RedirectionStep.dupStdout, RedirectionStep.closeStdout]
            ++ (directoryPrefixes ds).flatMap (directorySteps fs)
            ++ RedirectionStep.openFile (pathOf ds file) (RedirectionCommand.parse exec).append
              :: tail)
    ∧ (∀ p a, RedirectionStep.openFile p a ∈ RedirectionCommand.execute fs exec bg →
        ∀ q ∈ directoryPrefixes ds, fs.found q = true ∨ fs.mkdirOk q = true) := by
  have hsteps := redirection_steps fs exec bg ds file hparse hne hds hfile hdup
  have htail : ∀ q, RedirectionStep.stat q ∉
        (if (checkDirectories fs (directoryPrefixes ds)).2 then
              if fs.openOk then
                [RedirectionStep.openFile (pathOf ds file) (RedirectionCommand.parse exec).append,
                 RedirectionStep.runCommand
                   (if bg then (RedirectionCommand.parse exec).cmd_1 ++ ['&']
                    else (RedirectionCommand.parse exec).cmd_1),
                 RedirectionStep.closeFile, RedirectionStep.restoreStdout]
              else
                [RedirectionStep.openFile (pathOf ds file) (RedirectionCommand.parse exec).append,
                 RedirectionStep.restoreStdout]
            else [])
      ∧ RedirectionStep.mkdir q ∉
        (if (checkDirectories fs (directoryPrefixes ds)).2 then
              if fs.openOk then
                [RedirectionStep.openFile (pathOf ds file) (RedirectionCommand.parse exec).append,
                 RedirectionStep.runCommand
                   (if bg then (RedirectionCommand.parse exec).cmd_1 ++ ['&']
                    else (RedirectionCommand.parse exec).cmd_1),
                 RedirectionStep.closeFile, RedirectionStep.restoreStdout]
              else
                [RedirectionStep.openFile (pathOf ds file) (RedirectionCommand.parse exec).append,
                 RedirectionStep.restoreStdout]
            else []) := by
    intro q
    cases (checkDirectories fs (directoryPrefixes ds)).2 <;> cases fs.openOk <;> simp
  refine ⟨⟨_, hsteps, htail, ?_⟩, ?_, directoryPrefixes_nodup ds, ?_, ?_⟩
  · intro hc
    simp [hc]
  · intro q hq
    rw [hsteps] at hq
    apply checkDirectories_paths fs (directoryPrefixes ds) q
    have h1 := (htail q).1
    have h2 := (htail q).2
    simp only [List.mem_append, List.mem_cons, List.mem_singleton, List.not_mem_nil,
      reduceCtorEq, false_or, or_false] at hq
    rcases hq with (hq | hq) | (hq | hq)
    · exact Or.inl hq
    · exact absurd hq h1
    · exact Or.inr hq
    · exact absurd hq h2
  · intro hall
    rw [hsteps, checkDirectories_all fs _ hall]
    by_cases ho : fs.openOk = true
    · exact ⟨_, by simp only [if_true, ho]; rfl⟩
    · exact ⟨_, by simp only [if_true, ho, if_false]; rfl⟩
  · intro p a hmem
    apply checkDirectories_pass
    by_contra hc
    have hc2 : (checkDirectories fs (directoryPrefixes ds)).2 = false := by simpa using hc
    rw [hsteps] at hmem
    simp only [hc2, Bool.false_eq_true, if_false, List.append_nil, List.mem_append,
      List.mem_cons, List.mem_singleton, List.not_mem_nil, reduceCtorEq, false_or, or_false]
      at hmem
    exact checkDirectories_steps fs _ p a hmem

theorem redirection_directories_witness :
    directoryPrefixes ["out".toList, "sub".toList] = ["out".toList, "out/sub".toList]
    ∧ (∃ tail, RedirectionCommand.execute emptyFileSystem "echo hi > out/sub/file.txt".toList false
        = [RedirectionStep.dupStdout, RedirectionStep.closeStdout]
          ++ (directoryPrefixes ["out".toList, "sub".toList]).flatMap
              (directorySteps emptyFileSystem)
          ++ RedirectionStep.openFile (pathOf ["out".toList, "sub".toList] "file.txt".toList)
              (RedirectionCommand.parse "echo hi > out/sub/file.txt".toList).append :: tail)
    ∧ RedirectionCommand.execute emptyFileSystem "echo hi > out/sub/file.txt".toList false
        = [RedirectionStep.dupStdout, RedirectionStep.closeStdout,
           RedirectionStep.stat "out".toList, RedirectionStep.mkdir "out".toList,
           RedirectionStep.stat "out/sub".toList, RedirectionStep.mkdir "out/sub".toList,
           RedirectionStep.openFile "out/sub/file.txt".toList false,
           RedirectionStep.runCommand "echo hi ".toList,
           RedirectionStep.closeFile, RedirectionStep.restoreStdout] :=
  ⟨by decide,
   (redirection_directories emptyFileSystem "echo hi > out/sub/file.txt".toList false
      ["out".toList, "sub".toList] "file.txt".toList (by decide) (by decide) (by decide)
      (by decide) rfl).2.2.2.1 (by decide),
   by decide⟩

/-! ## Pipes -/

theorem firstIndex_some_get (p : Char → Bool) (s : List Char) :
    ∀ i, firstIndex p s = some i → ∃ c, s.get? i = some c ∧ p c = true := by
  induction s with
  | nil => intro i h; simp [firstIndex] at h
  | cons x xs ih =>
    intro i h
    unfold firstIndex at h
    by_cases hx : p x = true
    · rw [if_pos hx] at h
      cases h
      exact ⟨x, rfl, hx⟩
    · rw [if_neg hx] at h
      cases hr : firstIndex p xs with
      | none => simp [hr] at h
      | some j =>
        simp only [hr, Option.map_some', Option.some.injEq] at h
        subst h
        exact ih j hr

/-- The split of `PipeCommand::execute` on a text `pre | post` whose first `|`
is the one shown: the first sub-command is the trimmed `pre`; with `post` of
the form `&t` the flag is set and the second sub-command is the trimmed `t`
when `pre` holds no `&`, and the flag is clear and the second sub-command is
the trimmed `&t` when `pre` holds a `&`; with `post` not starting with `&` the
flag is clear and the second sub-command is the trimmed `post`. -/
theorem PipeCommand_split_spec (pre post : List Char) (hpre : '|' ∉ pre) :
    (PipeCommand.split (pre ++ '|' :: post)).cmd1 = _trim pre
    ∧ (∀ t, post = '&' :: t → '&' ∉ pre →
        PipeCommand.split (pre ++ '|' :: post)
          = { cmd1 := _trim pre, cmd2 := _trim t, err_flag := true })
    ∧ (∀ t, post = '&' :: t → '&' ∈ pre →
        PipeCommand.split (pre ++ '|' :: post)
          = { cmd1 := _trim pre, cmd2 := _trim post, err_flag := false })
    ∧ (post.head? ≠ some '&' →
        PipeCommand.split (pre ++ '|' :: post)
          = { cmd1 := _trim pre, cmd2 := _trim post, err_flag := false }) := by
  have hidx : find_first_of (pre ++ '|' :: post) '|' = some pre.length :=
    find_first_of_split pre post '|' hpre
  have htake : (pre ++ '|' :: post).take pre.length = pre := by simp
  have hdrop : (pre ++ '|' :: post).drop (pre.length + 1) = post := by
    have e : pre ++ '|' :: post = (pre ++ ['|']) ++ post := by simp
    rw [e]
    exact List.drop_left' (by simp)
  have hcmd1 : (PipeCommand.split (pre ++ '|' :: post)).cmd1 = _trim pre := by
    unfold PipeCommand.split
    simp only [hidx, htake]
    split_ifs <;> rfl
  have hclear : find_first_of (pre ++ '|' :: post) '&' ≠ some (pre.length + 1) →
      PipeCommand.split (pre ++ '|' :: post)
        = { cmd1 := _trim pre, cmd2 := _trim post, err_flag := false } := by
    intro hne
    have hb : (find_first_of (pre ++ '|' :: post) '&' == some (pre.length + 1)) = false := by
      simpa using hne
    unfold PipeCommand.split
    simp only [hidx, htake, afterIndex, hb, Bool.and_false, Bool.false_eq_true, if_false, hdrop]
  refine ⟨hcmd1, ?_, ?_, ?_⟩
  · intro t ht hamp
    subst ht
    have hfirst : find_first_of (pre ++ '|' :: '&' :: t) '&' = some (pre.length + 1) := by
      have hn : '&' ∉ pre ++ ['|'] := by
        simp only [List.mem_append, List.mem_singleton, not_or]
        exact ⟨hamp, by decide⟩
      have := find_first_of_split (pre ++ ['|']) t '&' hn
      simpa using this
    have hdrop2 : (pre ++ '|' :: '&' :: t).drop (pre.length + 1 + 1) = t := by
      have e : pre ++ '|' :: '&' :: t = (pre ++ ['|', '&']) ++ t := by simp
      rw [e]
      exact List.drop_left' (by simp)
    unfold PipeCommand.split
    simp only [hidx, htake, afterIndex, hfirst, hdrop2]
    simp
  · intro t _ hamp
    apply hclear
    obtain ⟨a, b, e, hn⟩ := exists_first_split pre '&' hamp
    have hfirst : find_first_of (pre ++ '|' :: post) '&' = some a.length := by
      have := find_first_of_split a (b ++ '|' :: post) '&' hn
      rw [e]
      simpa using this
    rw [hfirst]
    have hlen : a.length < pre.length := by
      rw [e]
      simp
    simp only [ne_eq, Option.some.injEq]
    omega
  · intro hhead
    apply hclear
    intro hfirst
    obtain ⟨c, hget, hc⟩ := firstIndex_some_get _ _ _ hfirst
    have hc2 : c = '&' := by simpa using hc
    subst hc2
    have e : pre ++ '|' :: post = (pre ++ ['|']) ++ post := by simp
    rw [e, List.get?_eq_getElem?, List.getElem?_append_right (by simp)] at hget
    apply hhead
    cases post with
    | nil => simp at hget
    | cons x xs =>
      simp at hget
      simp [hget]

/-- C22, at the failing input: in `echo a&b |& wc` the first `|` (position 9)
is immediately followed by `&`, yet the split clears the flag, the pipe
replaces descriptor 1 (the standard output), and the second sub-command is
`& wc`, not `wc`: `execute` compares the position of the first `&` of the whole
text (position 6) with the position after the `|`. -/
theorem pipe_split_earlier_ampersand :
    (CreateCommand "echo a&b |& wc".toList).map (fun c => (c.kind, c.exec))
      = some (CommandKind.PipeCommand, "echo a&b |& wc".toList)
    ∧ find_first_of "echo a&b |& wc".toList '|' = some 9
    ∧ "echo a&b |& wc".toList.get? 10 = some '&'
    ∧ find_first_of "echo a&b |& wc".toList '&' = some 6
    ∧ PipeCommand.split "echo a&b |& wc".toList
        = { cmd1 := "echo a&b".toList, cmd2 := "& wc".toList, err_flag := false }
    ∧ PipeCommand.to_close (PipeCommand.split "echo a&b |& wc".toList).err_flag = 1 := by
  decide

/-! ## Conversions that throw -/

/-- Conversions in `TimeoutCommand::execute` never end with `invalid_argument`
leaving the function: the handler catches it. -/
theorem TimeoutCommand_catches_invalid (cmd_line : List Char) (args : List (List Char)) :
    TimeoutCommand.execute cmd_line args ≠ TimeoutReport.threw StoiError.invalid_argument := by
  rcases args with _ | ⟨a, _ | ⟨dur, _ | ⟨b, rest⟩⟩⟩
  · simp [TimeoutCommand.execute]
  · simp [TimeoutCommand.execute]
  · simp [TimeoutCommand.execute]
  · simp only [TimeoutCommand.execute]
    cases hs : stoi dur with
    | error e => cases e <;> simp
    | ok v =>
      simp only []
      split_ifs <;> simp

/-- C23, at the failing inputs: for the duration token `99999999999` the
conversion in `TimeoutCommand::execute` throws `out_of_range`, which its
handler (for `invalid_argument`, as the token `abc` shows) does not catch; and
`KillCommand::execute`, which has no handler, lets `out_of_range` (signal
`-99999999999`) and `invalid_argument` (signal `z1`, which passes the check of
the form) leave the function. -/
theorem conversion_errors_escape :
    (CreateCommand "timeout 99999999999 sleep 10".toList).map (fun c => (c.kind, c.args))
      = some (CommandKind.TimeoutCommand,
          ["timeout".toList, "99999999999".toList, "sleep".toList, "10".toList])
    ∧ TimeoutCommand.execute "timeout 99999999999 sleep 10".toList
        ["timeout".toList, "99999999999".toList, "sleep".toList, "10".toList]
      = TimeoutReport.threw StoiError.out_of_range
    ∧ TimeoutCommand.execute "timeout abc sleep 10".toList
        ["timeout".toList, "abc".toList, "sleep".toList, "10".toList]
      = TimeoutReport.invalidArguments
    ∧ TimeoutCommand.execute "timeout 5 sleep 10".toList
        ["timeout".toList, "5".toList, "sleep".toList, "10".toList]
      = TimeoutReport.launch 5 "sleep 10".toList
    ∧ (KillCommand.execute ["kill".toList, "-99999999999".toList, "1".toList]
        (fun _ _ => true) sampleJobs).report = KillReport.threw StoiError.out_of_range
    ∧ (KillCommand.execute ["kill".toList, "z1".toList, "1".toList]
        (fun _ _ => true) sampleJobs).report = KillReport.threw StoiError.invalid_argument := by
  decide

/-! ## Absolute destinations -/

theorem checkDirectory_head (fs : FileSystem) (p : List Char) :
    ∃ steps, (checkDirectory fs p).1 = RedirectionStep.stat p :: steps := by
  unfold checkDirectory
  split_ifs
  · exact ⟨_, rfl⟩
  · exact ⟨_, rfl⟩
  · exact ⟨_, rfl⟩

theorem createDirectories_leading_slash (fs : FileSystem) (fuel : Nat) (rest : List Char) :
    ∃ steps, (createDirectories fs (fuel + 1) [] ('/' :: rest)).1
      = RedirectionStep.stat [] :: steps := by
  have hfirst : find_first_of ('/' :: rest) '/' = some 0 := by
    simp [find_first_of, firstIndex]
  obtain ⟨s1, hs1⟩ := checkDirectory_head fs []
  simp only [createDirectories, hfirst, List.take_zero, List.append_nil, List.nil_append]
  split_ifs
  · exact ⟨_, by rw [hs1]; rfl⟩
  · exact ⟨_, hs1⟩
  · exact ⟨_, hs1⟩

/-- For every destination that starts with `/`, the third step of `execute`,
after the standard output is saved and closed, is the `stat` of the empty
path. -/
theorem redirection_leading_slash (fs : FileSystem) (exec : List Char) (bg : Bool)
    (rest : List Char) (hparse : (RedirectionCommand.parse exec).cmd_2 = '/' :: rest)
    (hdup : fs.dupOk = true) :
    ∃ steps, RedirectionCommand.execute fs exec bg
      = RedirectionStep.dupStdout :: RedirectionStep.closeStdout
        :: RedirectionStep.stat [] :: steps := by
  have hfirst : find_first_of ('/' :: rest) '/' = some 0 := by
    simp [find_first_of, firstIndex]
  obtain ⟨steps, hsteps⟩ := createDirectories_leading_slash fs ('/' :: rest).length rest
  unfold RedirectionCommand.execute
  simp only [hparse, hfirst, hdup, reduceCtorEq, if_false, Bool.not_true, Bool.false_eq_true,
    ne_eq, not_false_eq_true, if_true, hsteps]
  split_ifs <;> exact ⟨_, rfl⟩

/-- C24, at the failing inputs: for the destination `/dir/file`, with `/dir`
present, `execute` gives the empty path to `stat` and then to `mkdir`, both
fail, and `execute` restores the standard output and returns without opening
the file; the same happens for `/file`, a path with a single leading `/`. -/
theorem redirection_absolute_path_empty_directory :
    dirFileSystem.found "/dir".toList = true
    ∧ RedirectionCommand.execute dirFileSystem "echo hi > /dir/file".toList false
      = [RedirectionStep.dupStdout, RedirectionStep.closeStdout, RedirectionStep.stat [],
         RedirectionStep.mkdir [], RedirectionStep.restoreStdout]
    ∧ RedirectionCommand.execute dirFileSystem "echo hi > /file".toList false
      = [RedirectionStep.dupStdout, RedirectionStep.closeStdout, RedirectionStep.stat [],
         RedirectionStep.mkdir [], RedirectionStep.restoreStdout]
    ∧ (∀ a, RedirectionStep.openFile "/dir/file".toList a
        ∉ RedirectionCommand.execute dirFileSystem "echo hi > /dir/file".toList false)
    ∧ RedirectionCommand.execute dirFileSystem "echo hi > dir/file".toList false
      = [RedirectionStep.dupStdout, RedirectionStep.closeStdout,
         RedirectionStep.stat "dir".toList, RedirectionStep.mkdir "dir".toList,
         RedirectionStep.openFile "dir/file".toList false,
         RedirectionStep.runCommand "echo hi ".toList,
         RedirectionStep.closeFile, RedirectionStep.restoreStdout] := by
  decide

end Smash
